import Mathlib

/-!
Verification model of the bun-sqlite-migrate repository (src/migrate.ts).

The development shallowly embeds the migration engine: the SQL canonicalizer
`normaliseSql`, the schema snapshots ("live" database and "pristine" target
database), and the `DBMigrator.migrate` pass, which is modelled as a pure
function from the two catalog snapshots to a result carrying the possible
error, the final database state, the change counter `nChanges`, and the trace
of executed statements.

Engine-level abstractions (the embedding does not model SQLite row data):
* `fkViolations` abstracts the row count returned by `PRAGMA foreign_key_check`
  at the moment the check would run.
* Executing a `CREATE TABLE` statement produced from the pristine catalog for
  table `n` yields catalog entry `(n, sql)`; `DROP TABLE` removes the entry.
  Index cascade on `DROP TABLE` and the column catalog of freshly created
  tables are not modelled: the code never reads them afterwards in a run.
-/

/-- Character class of the JavaScript regex `\s` (and of `String.prototype.trim`),
restricted to the scalar values it names: ASCII whitespace plus the Unicode
space separators JS includes. -/
def isWsChar (c : Char) : Bool :=
  c = ' ' || c = '\t' || c = '\n' || c = '\r' || c = '\x0b' || c = '\x0c' ||
  c = ' ' || c = ' ' || (0x2000 ≤ c.toNat && c.toNat ≤ 0x200a) ||
  c = ' ' || c = ' ' || c = ' ' || c = ' ' || c = '　' ||
  c = '﻿'

/-- Character class of the JavaScript regex `\w`: `[A-Za-z0-9_]`. -/
def isWordChar (c : Char) : Bool :=
  c.isAlpha || c.isDigit || c = '_'

/-- The characters of the character class `[(),]` in `normaliseSql`. -/
def isBrChar (c : Char) : Bool :=
  c = '(' || c = ')' || c = ','

/-- Scanner for `the regex --[^\n]*\n (global replace with "")`.
State `none`: outside a comment. State `some pend`: the scanner has seen `--`
and accumulated `pend` (reversed) without meeting a newline yet; if the input
ends in that state the regex never matched there, so the text is kept verbatim. -/
def scGo : Option (List Char) → List Char → List Char
  | none, [] => []
  | none, [c] => [c]
  | none, c1 :: c2 :: rest =>
      if c1 = '-' ∧ c2 = '-' then scGo (some []) rest
      else c1 :: scGo none (c2 :: rest)
  | some pend, [] => '-' :: '-' :: pend.reverse
  | some pend, c :: rest =>
      if c = '\n' then scGo none rest else scGo (some (c :: pend)) rest

/-- `the regex --[^\n]*\n (global replace with "")`: strip newline-terminated `--` comments. -/
def stripComments (l : List Char) : List Char := scGo none l

/-- Scanner for `sql.replace(/\s+/g, " ")`. The flag records whether the
previous character was part of a whitespace run already replaced by `' '`. -/
def cwGo : Bool → List Char → List Char
  | _, [] => []
  | inWs, c :: cs =>
    if isWsChar c then
      if inWs then cwGo true cs else ' ' :: cwGo true cs
    else c :: cwGo false cs

/-- `sql.replace(/\s+/g, " ")`: collapse every whitespace run to one space. -/
def collapseWs (l : List Char) : List Char := cwGo false l

/-- Scanner for `sql.replace(/ *([(),]) */g, "$1")`. `afterBr` means the scanner
sits right after an emitted bracket and is consuming the match's trailing
spaces; `k` counts pending spaces not yet known to precede a bracket
(`afterBr = true` implies `k = 0`). -/
def pfGo : Bool → Nat → List Char → List Char
  | _, k, [] => List.replicate k ' '
  | afterBr, k, c :: cs =>
    if c = ' ' then
      if afterBr then pfGo true 0 cs else pfGo false (k + 1) cs
    else if isBrChar c then c :: pfGo true 0 cs
    else List.replicate k ' ' ++ (c :: pfGo false 0 cs)

/-- `sql.replace(/ *([(),]) */g, "$1")`: drop spaces around `(`, `)`, `,`. -/
def parenFix (l : List Char) : List Char := pfGo false 0 l

/-- Scanner for `sql.replace(/"(\w+)"/g, "$1")`.
State `some pend`: an opening `"` has been read, `pend` holds the word
characters seen so far (reversed). A closing `"` after at least one word
character completes a match; anything else makes the regex fail at that
opening quote, and scanning resumes at the next character, which the
equation for `'"'` with empty `pend` reproduces. -/
def uqGo : Option (List Char) → List Char → List Char
  | none, [] => []
  | none, c :: cs => if c = '"' then uqGo (some []) cs else c :: uqGo none cs
  | some pend, [] => '"' :: pend.reverse
  | some pend, c :: cs =>
    if isWordChar c then uqGo (some (c :: pend)) cs
    else if c = '"' then
      if pend.isEmpty then '"' :: uqGo (some []) cs
      else pend.reverse ++ uqGo none cs
    else '"' :: pend.reverse ++ (c :: uqGo none cs)

/-- `sql.replace(/"(\w+)"/g, "$1")`: drop quotes around plain-word identifiers. -/
def unquote (l : List Char) : List Char := uqGo none l

/-- `String.prototype.trim`: remove leading and trailing whitespace. -/
def trimChars (l : List Char) : List Char :=
  ((l.dropWhile isWsChar).reverse.dropWhile isWsChar).reverse

/-- `normaliseSql` from src/migrate.ts: the canonical comparable form of a
defining SQL statement. The source's `if (!sql) return ''` guard is the
empty-string case. -/
def normaliseSql (sql : String) : String :=
  if sql = "" then ""
  else String.mk (trimChars (unquote (parenFix (collapseWs (stripComments sql.data)))))

example : stripComments "a --x\nb".data = "a b".data := rfl

example :
    normaliseSql "\n        CREATE TABLE \"Node\"( -- This is my table\n            -- There are many like it but this one is mine\n            A b, C D, \"E F G\", h)\n    "
      = "CREATE TABLE Node(A b,C D,\"E F G\",h)" := by decide

example : normaliseSql "\"\"x\"\"" = "\"x\"" := by decide
example : normaliseSql "\"x\"" = "x" := by decide

/-- JavaScript `String.prototype.endsWith`, used as
`tableName.endsWith('_migration_new')`. -/
def strEndsWith (s suf : String) : Bool := suf.data.isSuffixOf s.data

/-- SQLite `name LIKE '%_migration_new'` (the leftover-cleanup query filter):
`%` matches any sequence, each `_` matches any single character, letters match
case-insensitively (ASCII). -/
def likePatTail : List (Option Char) :=
  [none, some 'm', some 'i', some 'g', some 'r', some 'a', some 't', some 'i',
   some 'o', some 'n', none, some 'n', some 'e', some 'w']

/-- Matches a character-list against a list of LIKE pattern cells
(`none` = `_` wildcard, `some c` = the letter `c`, compared lowercased). -/
def likeTailMatches : List (Option Char) → List Char → Bool
  | [], [] => true
  | none :: ps, _ :: cs => likeTailMatches ps cs
  | some p :: ps, c :: cs => (c.toLower = p) && likeTailMatches ps cs
  | _, _ => false

/-- `name LIKE '%_migration_new'`: the name's last 14 characters match
`_migration_new` with both underscores as single-character wildcards,
case-insensitively. -/
def likeMigrationNew (name : String) : Bool :=
  let cs := name.data
  decide (14 ≤ cs.length) && likeTailMatches likePatTail (cs.drop (cs.length - 14))

/-- Does the match of `t` at the head of `l` end at a word boundary (`\b`)?
The character following the matched span, when present, must not be a word
character. (Table names consist of word characters, so the left/right `\b`
of the source's `new RegExp` reduce to this check plus the scanner's
previous-character flag.) -/
def rwBoundaryOk (t l : List Char) : Bool :=
  match (l.drop t.length).head? with
  | some c => !(isWordChar c)
  | none => true

/-- Scanner for `createTableSql.replace(new RegExp(&#96;\b${tblName}\b&#96;, "g"),
`${tblName}_migration_new`)`: replace every whole-word occurrence of `t` by
`rep`. `prevW` records whether the previously consumed character was a word
character (the left `\b` check). -/
def rwGo (t rep : List Char) : Bool → List Char → List Char
  | _, [] => []
  | prevW, c :: cs =>
    if t ≠ [] ∧ prevW = false ∧ (c :: cs).take t.length = t ∧ rwBoundaryOk t (c :: cs) then
      rep ++ rwGo t rep (match t.getLast? with
                         | some d => isWordChar d
                         | none => prevW) ((c :: cs).drop t.length)
    else c :: rwGo t rep (isWordChar c) cs
termination_by _ l => l.length
decreasing_by
  · simp only [List.length_drop, List.length_cons]
    rename_i ht
    have h1 : 1 ≤ t.length := by
      cases t with
      | nil => exact absurd rfl ht.1
      | cons a as => simp
    omega
  · simp

/-- Whole-word textual rename of `t` to `rep` inside `s` (the table-rebuild
`newTableSql` construction). -/
def renameWord (t rep s : String) : String :=
  String.mk (rwGo t.data rep.data false s.data)

/-- The data-copy statement of the rebuild sequence (the template literal at
src/migrate.ts lines 216-217, including its embedded newline and indentation). -/
def insertSql (tbl : String) (commonCols : List String) : String :=
  "INSERT INTO " ++ tbl ++ "_migration_new (" ++ String.intercalate ", " commonCols ++
  ")\n                SELECT " ++ String.intercalate ", " commonCols ++ " FROM " ++ tbl

/-- Catalog snapshot of the live database plus the abstracted data-dependent
observation `fkViolations` (the number of rows `PRAGMA foreign_key_check`
would return). `tables`/`indices` are the `sqlite_master` rows
(name, defining sql) with `sqlite_sequence` already excluded; names are unique
in a real catalog, which theorems assume as `Nodup` hypotheses where it
matters. Index sql is `Option` because auto-indices carry a NULL sql. -/
structure DbState where
  tables : List (String × String)
  indices : List (String × Option String)
  cols : List (String × List String)
  userVersion : Int
  foreignKeys : Int
  fkViolations : Nat
deriving DecidableEq, Repr

/-- Catalog snapshot of the pristine in-memory database built from the target
schema text. -/
structure Pristine where
  tables : List (String × String)
  indices : List (String × Option String)
  cols : List (String × List String)
  userVersion : Int
  foreignKeys : Int
deriving DecidableEq, Repr

/-- One statement the migrator hands to `logExecute`, tagged with the data
needed to interpret it against the catalog. -/
inductive Eff where
  | createTable (name sql : String)
  | dropTable (name : String)
  | insertCopy (sql : String)
  | renameTable (old nw : String)
  | dropIndex (name : String)
  | createIndex (name : String) (sql : Option String)
  | setPragma (name : String) (value : Int)
  | dropTableIfExists (name : String)
deriving DecidableEq, Repr

/-- The errors `migrate` can throw. -/
inductive MigError where
  | destructiveTables (names : List String)
  | destructiveColumns (table : String) (removed : List String)
  | foreignKeyViolation
deriving DecidableEq, Repr

/-- The migrator's mutable context: the live database, the `nChanges` counter
and the ordered trace of statements actually executed. -/
structure MState where
  db : DbState
  n : Nat
  tr : List Eff
deriving DecidableEq, Repr

/-- The SQL text `logExecute` receives for an effect (`none` models a
null/undefined sql argument, which `logExecute` refuses to run). -/
def effSql : Eff → Option String
  | .createTable _ sql => some sql
  | .dropTable name => some ("DROP TABLE " ++ name)
  | .insertCopy sql => some sql
  | .renameTable old nw => some ("ALTER TABLE " ++ old ++ " RENAME TO " ++ nw)
  | .dropIndex name => some ("DROP INDEX " ++ name)
  | .createIndex _ sql => sql
  | .setPragma name v => some ("PRAGMA " ++ name ++ " = " ++ toString v)
  | .dropTableIfExists name => some ("DROP TABLE IF EXISTS " ++ name)

/-- Catalog effect of executing one statement (`this.db.run(sql)`), at the
granularity the migrator later observes. -/
def applyEff (db : DbState) : Eff → DbState
  | .createTable name sql => { db with tables := db.tables ++ [(name, sql)] }
  | .dropTable name =>
      { db with tables := db.tables.filter (fun p => p.1 != name),
                cols := db.cols.filter (fun p => p.1 != name) }
  | .insertCopy _ => db
  | .renameTable old nw =>
      { db with
        tables := db.tables.map (fun p => if p.1 = old then (nw, renameWord old nw p.2) else p),
        cols := db.cols.map (fun p => if p.1 = old then (nw, p.2) else p) }
  | .dropIndex name => { db with indices := db.indices.filter (fun p => p.1 != name) }
  | .createIndex name sql => { db with indices := db.indices ++ [(name, sql)] }
  | .setPragma name v =>
      if name = "user_version" then { db with userVersion := v }
      else if name = "foreign_keys" then { db with foreignKeys := v }
      else db
  | .dropTableIfExists name =>
      { db with tables := db.tables.filter (fun p => p.1 != name),
                cols := db.cols.filter (fun p => p.1 != name) }

/-- `logExecute(msg, sql)`: run and count the statement only when the sql is
present and nonempty after trimming (`if (sql && sql.trim())`). -/
def logExecute (st : MState) (e : Eff) : MState :=
  match effSql e with
  | some sql =>
      if trimChars sql.data ≠ [] then ⟨applyEff st.db e, st.n + 1, st.tr ++ [e]⟩ else st
  | none => st

/-- The names of a catalog listing (first components). -/
def keysOf {α : Type} (l : List (String × α)) : List String := l.map (·.1)

/-- `newTables`: pristine table names not present in the current database
(src/migrate.ts lines 132-135). -/
def newTablesOf (tables pristineTables : List (String × String)) : List String :=
  (keysOf pristineTables).filter (fun n => !((keysOf tables).contains n))

/-- `removedTables`: current table names not present in the pristine schema,
minus names ending in `_migration_new` (src/migrate.ts lines 137-147). -/
def removedTablesOf (tables pristineTables : List (String × String)) : List String :=
  ((keysOf tables).filter (fun n => !((keysOf pristineTables).contains n))).filter
    (fun n => !(strEndsWith n "_migration_new"))

/-- `modifiedTables`: pristine entries whose table also exists currently but
with a different canonical sql (src/migrate.ts lines 153-160). -/
def modifiedTablesOf (tables pristineTables : List (String × String)) : List String :=
  (pristineTables.filter (fun e =>
    match tables.lookup e.1 with
    | some existingSql => normaliseSql existingSql != normaliseSql e.2
    | none => false)).map (·.1)

/-- The new-tables loop (src/migrate.ts lines 170-177). A missing or empty
pristine sql is only warned about (`if (tableSql)`), which coincides with
`logExecute`'s own emptiness check. -/
def newTablesPhase (pristineTables : List (String × String)) (names : List String)
    (st : MState) : MState :=
  names.foldl (fun st n =>
    match pristineTables.lookup n with
    | some sql => logExecute st (.createTable n sql)
    | none => st) st

/-- The removed-tables loop (src/migrate.ts lines 178-180). -/
def removedPhase (names : List String) (st : MState) : MState :=
  names.foldl (fun st n => logExecute st (.dropTable n)) st

/-- `PRAGMA table_info(t)` column names; an unknown table yields no rows. -/
def colsLookup (cols : List (String × List String)) (n : String) : List String :=
  (cols.lookup n).getD []

/-- One iteration of the modified-tables loop (src/migrate.ts lines 182-230):
create the `_migration_new` staging table, refuse unauthorized column
deletions, copy the intersecting columns, drop the old table, rename. -/
def modifiedStep (pr : Pristine) (allowDeletions : Bool) (st : MState) (tblName : String) :
    Except (MState × MigError) MState :=
  match pr.tables.lookup tblName with
  | none => .ok st
  | some createTableSql =>
    let newTableSql := renameWord tblName (tblName ++ "_migration_new") createTableSql
    let st1 := logExecute st (.createTable (tblName ++ "_migration_new") newTableSql)
    let cols := colsLookup st1.db.cols tblName
    let pristineCols := colsLookup pr.cols tblName
    let removedColumns := cols.filter (fun c => !(pristineCols.contains c))
    if allowDeletions = false ∧ removedColumns ≠ [] then
      .error (st1, .destructiveColumns tblName removedColumns)
    else
      let commonCols := cols.filter (fun c => pristineCols.contains c)
      let st2 := logExecute st1 (.insertCopy (insertSql tblName commonCols))
      let st3 := logExecute st2 (.dropTable tblName)
      let st4 := logExecute st3 (.renameTable (tblName ++ "_migration_new") tblName)
      .ok st4

/-- The modified-tables loop; a thrown error aborts the remaining iterations
carrying the state reached so far. -/
def modifiedPhase (pr : Pristine) (allowDeletions : Bool) (names : List String)
    (st : MState) : Except (MState × MigError) MState :=
  names.foldlM (fun st n => modifiedStep pr allowDeletions st n) st

/-- Index reconciliation (src/migrate.ts lines 232-253). Both loops consult
the index map captured once at line 234; the statements mutate the threaded
state. The change test is plain string inequality (`sql !== indices.get(name)`). -/
def indexPhase (pristineIndices : List (String × Option String)) (st : MState) : MState :=
  let indices := st.db.indices
  let st1 := (keysOf indices).foldl (fun st n =>
      if (keysOf pristineIndices).contains n then st else logExecute st (.dropIndex n)) st
  pristineIndices.foldl (fun st e =>
      if !((keysOf indices).contains e.1) then logExecute st (.createIndex e.1 e.2)
      else if e.2 != (indices.lookup e.1).getD none then
        logExecute (logExecute st (.dropIndex e.1)) (.createIndex e.1 e.2)
      else st) st1

/-- `migratePragma('user_version')` (src/migrate.ts lines 270-285): both
pragma queries always return a row, so the `if (pristineVal && val)` guard
always holds; set the pragma when the values differ. -/
def pragmaPhase (prUserVersion : Int) (st : MState) : MState :=
  if st.db.userVersion ≠ prUserVersion then
    logExecute st (.setPragma "user_version" prUserVersion)
  else st

/-- The guard of the foreign-key post-check (src/migrate.ts line 257):
`this.pristine.query("PRAGMA foreign_keys").get()?.[0]`. The row is an object
keyed by the column name `foreign_keys`, so reading property `0` yields
`undefined` and the guard is always falsy. -/
def fkGuardVal (prForeignKeys : Int) : Bool :=
  match ([("foreign_keys", prForeignKeys)] : List (String × Int)).lookup "0" with
  | some v => v != 0
  | none => false

/-- Leftover cleanup (src/migrate.ts lines 263-267): drop every table whose
name matches `LIKE '%_migration_new'` at this point. -/
def cleanupPhase (st : MState) : MState :=
  let leftover := (keysOf st.db.tables).filter likeMigrationNew
  leftover.foldl (fun st n => logExecute st (.dropTableIfExists n)) st

/-- Outcome of one `migrate()` call: the error thrown (if any), the final live
database, `nChanges`, and the executed-statement trace. -/
structure MigResult where
  err : Option MigError
  db : DbState
  nChanges : Nat
  trace : List Eff
deriving DecidableEq, Repr

/-- `DBMigrator.migrate` (src/migrate.ts lines 120-268). The session pragma
`defer_foreign_keys` (line 163) has no catalog effect and bypasses
`logExecute`, so it is not modelled as an operation. -/
def migrate (db0 : DbState) (pr : Pristine) (allowDeletions : Bool) : MigResult :=
  let newTables := newTablesOf db0.tables pr.tables
  let removedTables := removedTablesOf db0.tables pr.tables
  if removedTables ≠ [] ∧ allowDeletions = false then
    ⟨some (.destructiveTables removedTables), db0, 0, []⟩
  else
    let modifiedTables := modifiedTablesOf db0.tables pr.tables
    let st0 : MState := ⟨db0, 0, []⟩
    let st1 := newTablesPhase pr.tables newTables st0
    let st2 := removedPhase removedTables st1
    match modifiedPhase pr allowDeletions modifiedTables st2 with
    | .error (st, e) => ⟨some e, st.db, st.n, st.tr⟩
    | .ok st3 =>
      let st4 := indexPhase pr.indices st3
      let st5 := pragmaPhase pr.userVersion st4
      if fkGuardVal pr.foreignKeys ∧ st5.db.fkViolations > 0 then
        ⟨some .foreignKeyViolation, st5.db, st5.n, st5.tr⟩
      else
        let st6 := cleanupPhase st5
        ⟨none, st6.db, st6.n, st6.tr⟩

deriving instance DecidableEq for Except

/-- `dumbMigrateDb` (src/migrate.ts lines 68-72): run the migration and report
whether anything changed; thrown errors propagate. -/
def dumbMigrateDb (db0 : DbState) (pr : Pristine) (allowDeletions : Bool) :
    Except MigError (DbState × Bool) :=
  let r := migrate db0 pr allowDeletions
  match r.err with
  | some e => .error e
  | none => .ok (r.db, decide (r.nChanges > 0))

/-! ## Basic facts about the classification and the phases -/

theorem mem_removedTablesOf {tables pristineTables : List (String × String)} {t : String}
    (ht : t ∈ keysOf tables)
    (hnp : (keysOf pristineTables).contains t = false)
    (hsuf : strEndsWith t "_migration_new" = false) :
    t ∈ removedTablesOf tables pristineTables := by
  unfold removedTablesOf
  refine List.mem_filter.mpr ⟨List.mem_filter.mpr ⟨ht, ?_⟩, ?_⟩
  · simp only [hnp, Bool.not_false]
  · simp only [hsuf, Bool.not_false]

theorem not_mem_removedTablesOf_of_suffix {tables pristineTables : List (String × String)}
    {t : String} (hsuf : strEndsWith t "_migration_new" = true) :
    t ∉ removedTablesOf tables pristineTables := by
  intro hmem
  have := (List.mem_filter.mp hmem).2
  simp [hsuf] at this

/-- The foreign-key guard at src/migrate.ts line 257 is always falsy: the
pragma row object has no property `0`. -/
theorem fkGuardVal_false (v : Int) : fkGuardVal v = false := rfl

/-- C1: if the current database has a table, not carrying the reserved
`_migration_new` suffix, that is absent from the target schema, and
`allowDeletions` is false, then `migrate` throws `DestructiveChangeRejected`
(the `destructiveTables` error), executes no statement, leaves `nChanges` at 0
and leaves the live database completely unchanged. -/
theorem migrate_rejects_destructive_untouched (db0 : DbState) (pr : Pristine) (t : String)
    (ht : t ∈ keysOf db0.tables)
    (hnp : (keysOf pr.tables).contains t = false)
    (hsuf : strEndsWith t "_migration_new" = false) :
    migrate db0 pr false =
      ⟨some (.destructiveTables (removedTablesOf db0.tables pr.tables)), db0, 0, []⟩
    ∧ removedTablesOf db0.tables pr.tables ≠ [] := by
  have hne : removedTablesOf db0.tables pr.tables ≠ [] :=
    List.ne_nil_of_mem (mem_removedTablesOf ht hnp hsuf)
  refine ⟨?_, hne⟩
  unfold migrate
  rw [if_pos ⟨hne, rfl⟩]

/-- Witness for C1 at a concrete input. -/
theorem migrate_rejects_destructive_untouched_witness :
    migrate ⟨[("a", "CREATE TABLE a(x)")], [], [], 0, 0, 0⟩ ⟨[], [], [], 0, 0⟩ false =
      ⟨some (.destructiveTables
        (removedTablesOf [("a", "CREATE TABLE a(x)")] [])),
        ⟨[("a", "CREATE TABLE a(x)")], [], [], 0, 0, 0⟩, 0, []⟩
    ∧ removedTablesOf [("a", "CREATE TABLE a(x)")] ([] : List (String × String)) ≠ [] :=
  migrate_rejects_destructive_untouched
    ⟨[("a", "CREATE TABLE a(x)")], [], [], 0, 0, 0⟩ ⟨[], [], [], 0, 0⟩ "a"
    (by decide) (by decide) (by decide)

/-- Counterexample to C2 as stated: a database whose catalog is identical to
the target's, but containing a table named with the reserved suffix. The run
matches the schemas, yet the leftover cleanup drops the table, so `nChanges`
is 1 and the entry point reports `changed = true`. -/
theorem matching_schema_can_still_change :
    (⟨[("t_migration_new", "CREATE TABLE t_migration_new(x)")], [], [], 0, 0, 0⟩ : DbState).tables
        = (⟨[("t_migration_new", "CREATE TABLE t_migration_new(x)")], [], [], 0, 0⟩ : Pristine).tables
    ∧ (⟨[("t_migration_new", "CREATE TABLE t_migration_new(x)")], [], [], 0, 0, 0⟩ : DbState).indices
        = (⟨[("t_migration_new", "CREATE TABLE t_migration_new(x)")], [], [], 0, 0⟩ : Pristine).indices
    ∧ (⟨[("t_migration_new", "CREATE TABLE t_migration_new(x)")], [], [], 0, 0, 0⟩ : DbState).userVersion
        = (⟨[("t_migration_new", "CREATE TABLE t_migration_new(x)")], [], [], 0, 0⟩ : Pristine).userVersion
    ∧ (⟨[("t_migration_new", "CREATE TABLE t_migration_new(x)")], [], [], 0, 0, 0⟩ : DbState).foreignKeys
        = (⟨[("t_migration_new", "CREATE TABLE t_migration_new(x)")], [], [], 0, 0⟩ : Pristine).foreignKeys
    ∧ ¬((migrate ⟨[("t_migration_new", "CREATE TABLE t_migration_new(x)")], [], [], 0, 0, 0⟩
          ⟨[("t_migration_new", "CREATE TABLE t_migration_new(x)")], [], [], 0, 0⟩ false).nChanges = 0
        ∧ dumbMigrateDb ⟨[("t_migration_new", "CREATE TABLE t_migration_new(x)")], [], [], 0, 0, 0⟩
            ⟨[("t_migration_new", "CREATE TABLE t_migration_new(x)")], [], [], 0, 0⟩ false
          = .ok (⟨[("t_migration_new", "CREATE TABLE t_migration_new(x)")], [], [], 0, 0, 0⟩, false)) := by
  decide

/-- Counterexample to C3 as stated: a failing run (destructive rejection) ends
with a `_migration_new` table still present — the cleanup step only runs on
runs that reach the end without throwing. -/
theorem leftover_survives_failed_run :
    (migrate ⟨[("a", "CREATE TABLE a(x)"),
               ("left_migration_new", "CREATE TABLE left_migration_new(x)")], [], [], 0, 0, 0⟩
        ⟨[], [], [], 0, 0⟩ false).err.isSome = true
    ∧ strEndsWith "left_migration_new" "_migration_new" = true
    ∧ "left_migration_new" ∈ keysOf (migrate ⟨[("a", "CREATE TABLE a(x)"),
               ("left_migration_new", "CREATE TABLE left_migration_new(x)")], [], [], 0, 0, 0⟩
        ⟨[], [], [], 0, 0⟩ false).db.tables := by
  decide

/-- Counterexample to C5 as stated: the target's `foreign_keys` pragma differs
from the live one, the run succeeds, yet no statement at all is executed and
the live `foreign_keys` value is left untouched (only `user_version` is ever
reconciled). -/
theorem foreign_keys_pragma_not_reconciled :
    (migrate ⟨[("t", "CREATE TABLE t(x)")], [], [], 0, 0, 0⟩
        ⟨[("t", "CREATE TABLE t(x)")], [], [], 0, 1⟩ false).err = none
    ∧ (migrate ⟨[("t", "CREATE TABLE t(x)")], [], [], 0, 0, 0⟩
        ⟨[("t", "CREATE TABLE t(x)")], [], [], 0, 1⟩ false).trace = []
    ∧ (migrate ⟨[("t", "CREATE TABLE t(x)")], [], [], 0, 0, 0⟩
        ⟨[("t", "CREATE TABLE t(x)")], [], [], 0, 1⟩ false).db.foreignKeys = 0 := by
  decide

/-- Counterexample to C6 as stated: an index present in both snapshots whose
two defining statements differ only in spacing — the canonical forms agree —
is nevertheless dropped and recreated, because the index comparison uses raw
string inequality, not `normaliseSql`. -/
theorem index_rewritten_despite_equal_canonical_sql :
    normaliseSql "CREATE INDEX i ON t(a)" = normaliseSql "CREATE  INDEX i ON t(a)"
    ∧ "CREATE INDEX i ON t(a)" ≠ "CREATE  INDEX i ON t(a)"
    ∧ (migrate ⟨[("t", "CREATE TABLE t(a)")], [("i", some "CREATE INDEX i ON t(a)")], [], 0, 0, 0⟩
        ⟨[("t", "CREATE TABLE t(a)")], [("i", some "CREATE  INDEX i ON t(a)")], [], 0, 0⟩ false).trace
      = [.dropIndex "i", .createIndex "i" (some "CREATE  INDEX i ON t(a)")] := by
  decide

/-- Counterexample to C7 as stated: two statements that differ only in the
text of a final single-line comment that is not newline-terminated — the
comment regex requires a closing newline — canonicalize differently. -/
theorem unterminated_comments_break_canonical_equality :
    normaliseSql "SELECT 1 --a" ≠ normaliseSql "SELECT 1 --b" := by
  decide

/-- Counterexample to C8 as stated: quote removal is a single left-to-right
pass, so a second application can remove further quotes. -/
theorem normaliseSql_not_idempotent :
    normaliseSql (normaliseSql "\"\"x\"\"") ≠ normaliseSql "\"\"x\"\"" := by
  decide

/-! ## Executor lemmas -/

theorem trimChars_ne_nil_of_mem {l : List Char} {c : Char} (hmem : c ∈ l)
    (hc : isWsChar c = false) : trimChars l ≠ [] := by
  intro hnil
  unfold trimChars at hnil
  rw [List.reverse_eq_nil_iff] at hnil
  have h0 : c ∈ l.takeWhile isWsChar ++ l.dropWhile isWsChar := by
    rw [List.takeWhile_append_dropWhile]; exact hmem
  have h1 : c ∈ l.dropWhile isWsChar := by
    rcases List.mem_append.mp h0 with h | h
    · exact absurd (List.mem_takeWhile_imp h) (by simp [hc])
    · exact h
  have h2 : c ∈ (l.dropWhile isWsChar).reverse := List.mem_reverse.mpr h1
  have h3 := List.dropWhile_eq_nil_iff.mp hnil c h2
  rw [hc] at h3
  exact absurd h3 (by simp)

theorem logExecute_run {st : MState} {e : Eff} {sql : String}
    (h1 : effSql e = some sql) (h2 : trimChars sql.data ≠ []) :
    logExecute st e = ⟨applyEff st.db e, st.n + 1, st.tr ++ [e]⟩ := by
  simp only [logExecute, h1]
  rw [if_pos h2]

theorem dropTable_run (st : MState) (n : String) :
    logExecute st (.dropTable n) =
      ⟨applyEff st.db (.dropTable n), st.n + 1, st.tr ++ [.dropTable n]⟩ :=
  logExecute_run rfl (trimChars_ne_nil_of_mem (c := 'D')
    (by rw [String.data_append]; exact List.mem_append_left _ (by decide)) (by decide))

theorem dropTableIfExists_run (st : MState) (n : String) :
    logExecute st (.dropTableIfExists n) =
      ⟨applyEff st.db (.dropTableIfExists n), st.n + 1, st.tr ++ [.dropTableIfExists n]⟩ :=
  logExecute_run rfl (trimChars_ne_nil_of_mem (c := 'D')
    (by rw [String.data_append]; exact List.mem_append_left _ (by decide)) (by decide))

theorem dropIndex_run (st : MState) (n : String) :
    logExecute st (.dropIndex n) =
      ⟨applyEff st.db (.dropIndex n), st.n + 1, st.tr ++ [.dropIndex n]⟩ :=
  logExecute_run rfl (trimChars_ne_nil_of_mem (c := 'D')
    (by rw [String.data_append]; exact List.mem_append_left _ (by decide)) (by decide))

theorem setPragma_run (st : MState) (p : String) (v : Int) :
    logExecute st (.setPragma p v) =
      ⟨applyEff st.db (.setPragma p v), st.n + 1, st.tr ++ [.setPragma p v]⟩ := by
  refine logExecute_run rfl (trimChars_ne_nil_of_mem (c := 'P') ?_ (by decide))
  rw [String.data_append, String.data_append, String.data_append]
  exact List.mem_append_left _ (List.mem_append_left _ (List.mem_append_left _ (by decide)))

theorem mem_tr_logExecute {x : Eff} {st : MState} {e : Eff}
    (h : x ∈ (logExecute st e).tr) : x ∈ st.tr ∨ x = e := by
  unfold logExecute at h
  cases heq : effSql e with
  | none => rw [heq] at h; exact Or.inl h
  | some sql =>
    simp only [heq] at h
    by_cases h2 : trimChars sql.data ≠ []
    · rw [if_pos h2] at h
      simp only [List.mem_append, List.mem_singleton] at h
      exact h
    · rw [if_neg h2] at h; exact Or.inl h

theorem tr_mem_logExecute (st : MState) (e : Eff) {x : Eff} (h : x ∈ st.tr) :
    x ∈ (logExecute st e).tr := by
  unfold logExecute
  cases heq : effSql e with
  | none => exact h
  | some sql =>
    simp only
    by_cases h2 : trimChars sql.data ≠ []
    · rw [if_pos h2]; exact List.mem_append_left _ h
    · rw [if_neg h2]; exact h

theorem logExecute_uv (st : MState) (e : Eff)
    (h : ∀ p v, e ≠ .setPragma p v) : (logExecute st e).db.userVersion = st.db.userVersion := by
  unfold logExecute
  cases heq : effSql e with
  | none => rfl
  | some sql =>
    simp only
    by_cases h2 : trimChars sql.data ≠ []
    · rw [if_pos h2]
      cases e with
      | setPragma p v => exact absurd rfl (h p v)
      | createTable n s => rfl
      | dropTable n => rfl
      | insertCopy s => rfl
      | renameTable o nw => rfl
      | dropIndex n => rfl
      | createIndex n s => rfl
      | dropTableIfExists n => rfl
    · rw [if_neg h2]

/-! ## Generic fold lemmas over the migrator state -/

theorem foldl_tr_mem {α : Type} (step : MState → α → MState) (P : α → Eff → Prop)
    (hstep : ∀ st a x, x ∈ (step st a).tr → x ∈ st.tr ∨ P a x) :
    ∀ (l : List α) (st : MState) (x : Eff),
      x ∈ (l.foldl step st).tr → x ∈ st.tr ∨ ∃ a ∈ l, P a x := by
  intro l
  induction l with
  | nil => intro st x h; exact Or.inl h
  | cons a as ih =>
    intro st x h
    rcases ih (step st a) x h with h1 | ⟨b, hb, hp⟩
    · rcases hstep st a x h1 with h2 | hp
      · exact Or.inl h2
      · exact Or.inr ⟨a, List.mem_cons_self a as, hp⟩
    · exact Or.inr ⟨b, List.mem_cons_of_mem a hb, hp⟩

theorem foldl_tr_mono {α : Type} (step : MState → α → MState)
    (hstep : ∀ st a x, x ∈ st.tr → x ∈ (step st a).tr) :
    ∀ (l : List α) (st : MState) (x : Eff), x ∈ st.tr → x ∈ (l.foldl step st).tr := by
  intro l
  induction l with
  | nil => intro st x h; exact h
  | cons a as ih => intro st x h; exact ih (step st a) x (hstep st a x h)

theorem foldl_tr_append {α : Type} (step : MState → α → MState) (emit : α → List Eff)
    (hstep : ∀ st a, (step st a).tr = st.tr ++ emit a) :
    ∀ (l : List α) (st : MState), (l.foldl step st).tr = st.tr ++ (l.map emit).flatten := by
  intro l
  induction l with
  | nil => intro st; simp
  | cons a as ih =>
    intro st
    rw [List.foldl_cons, ih (step st a), hstep st a]
    simp

theorem foldl_preserve {α β : Type} (step : MState → α → MState) (f : MState → β)
    (hstep : ∀ st a, f (step st a) = f st) :
    ∀ (l : List α) (st : MState), f (l.foldl step st) = f st := by
  intro l
  induction l with
  | nil => intro st; rfl
  | cons a as ih => intro st; rw [List.foldl_cons, ih (step st a), hstep st a]

theorem foldl_eq_self {α : Type} (step : MState → α → MState) (l : List α)
    (st : MState) (hstep : ∀ st' a, a ∈ l → step st' a = st') : l.foldl step st = st := by
  induction l generalizing st with
  | nil => rfl
  | cons a as ih =>
    rw [List.foldl_cons, hstep st a (List.mem_cons_self a as)]
    exact ih st (fun st' b hb => hstep st' b (List.mem_cons_of_mem a hb))

/-! ## Phase characterizations -/

/-- The migrator state reached by a possibly-thrown modified-tables loop. -/
def phaseOut : Except (MState × MigError) MState → MState
  | .ok st => st
  | .error (st, _) => st

/-- The statement shapes the rebuild sequence for table `n` can execute. -/
def ModEff (n : String) (x : Eff) : Prop :=
  (∃ sql, x = .createTable (n ++ "_migration_new") sql)
  ∨ (∃ sql, x = .insertCopy sql)
  ∨ x = .dropTable n
  ∨ x = .renameTable (n ++ "_migration_new") n

theorem modifiedStep_tr_mem (pr : Pristine) (allow : Bool) (st : MState) (n : String)
    (x : Eff) (h : x ∈ (phaseOut (modifiedStep pr allow st n)).tr) :
    x ∈ st.tr ∨ ModEff n x := by
  unfold modifiedStep at h
  cases hl : pr.tables.lookup n with
  | none => rw [hl] at h; exact Or.inl h
  | some sql =>
    simp only [hl] at h
    by_cases hg : allow = false ∧
        (colsLookup (logExecute st (.createTable (n ++ "_migration_new")
            (renameWord n (n ++ "_migration_new") sql))).db.cols n).filter
          (fun c => !((colsLookup pr.cols n).contains c)) ≠ [] <;>
      [rw [if_pos hg] at h; rw [if_neg hg] at h] <;>
      simp only [phaseOut] at h
    · rcases mem_tr_logExecute h with h1 | h1
      · exact Or.inl h1
      · exact Or.inr (Or.inl ⟨_, h1⟩)
    · rcases mem_tr_logExecute h with h1 | h1
      · rcases mem_tr_logExecute h1 with h2 | h2
        · rcases mem_tr_logExecute h2 with h3 | h3
          · rcases mem_tr_logExecute h3 with h4 | h4
            · exact Or.inl h4
            · exact Or.inr (Or.inl ⟨_, h4⟩)
          · exact Or.inr (Or.inr (Or.inl ⟨_, h3⟩))
        · exact Or.inr (Or.inr (Or.inr (Or.inl h2)))
      · exact Or.inr (Or.inr (Or.inr (Or.inr h1)))

theorem modifiedStep_tr_mono (pr : Pristine) (allow : Bool) (st : MState) (n : String)
    (x : Eff) (h : x ∈ st.tr) : x ∈ (phaseOut (modifiedStep pr allow st n)).tr := by
  unfold modifiedStep
  cases hl : pr.tables.lookup n with
  | none => exact h
  | some sql =>
    simp only
    by_cases hg : allow = false ∧
        (colsLookup (logExecute st (.createTable (n ++ "_migration_new")
            (renameWord n (n ++ "_migration_new") sql))).db.cols n).filter
          (fun c => !((colsLookup pr.cols n).contains c)) ≠ [] <;>
      [rw [if_pos hg]; rw [if_neg hg]] <;> simp only [phaseOut]
    · exact tr_mem_logExecute _ _ h
    · exact tr_mem_logExecute _ _ (tr_mem_logExecute _ _
        (tr_mem_logExecute _ _ (tr_mem_logExecute _ _ h)))

theorem modifiedPhase_tr_mem (pr : Pristine) (allow : Bool) :
    ∀ (names : List String) (st : MState) (x : Eff),
      x ∈ (phaseOut (modifiedPhase pr allow names st)).tr →
      x ∈ st.tr ∨ ∃ n ∈ names, ModEff n x := by
  intro names
  induction names with
  | nil => intro st x h; exact Or.inl h
  | cons a as ih =>
    intro st x h
    rw [modifiedPhase, List.foldlM_cons] at h
    cases hs : modifiedStep pr allow st a with
    | error p =>
      rw [hs] at h
      have hb : (Except.error p >>= fun st' =>
          List.foldlM (fun st n => modifiedStep pr allow st n) st' as)
          = (Except.error p : Except (MState × MigError) MState) := rfl
      rw [hb] at h
      have : x ∈ (phaseOut (modifiedStep pr allow st a)).tr := by
        rw [hs]; exact h
      rcases modifiedStep_tr_mem pr allow st a x this with h1 | h1
      · exact Or.inl h1
      · exact Or.inr ⟨a, List.mem_cons_self a as, h1⟩
    | ok st' =>
      rw [hs] at h
      have hb : (Except.ok st' >>= fun st'' =>
          List.foldlM (fun st n => modifiedStep pr allow st n) st'' as)
          = List.foldlM (fun st n => modifiedStep pr allow st n) st' as := rfl
      rw [hb] at h
      rcases ih st' x h with h1 | ⟨b, hb2, hp⟩
      · have : x ∈ (phaseOut (modifiedStep pr allow st a)).tr := by
          rw [hs]; exact h1
        rcases modifiedStep_tr_mem pr allow st a x this with h2 | h2
        · exact Or.inl h2
        · exact Or.inr ⟨a, List.mem_cons_self a as, h2⟩
      · exact Or.inr ⟨b, List.mem_cons_of_mem a hb2, hp⟩

theorem modifiedPhase_tr_mono (pr : Pristine) (allow : Bool) :
    ∀ (names : List String) (st : MState) (x : Eff), x ∈ st.tr →
      x ∈ (phaseOut (modifiedPhase pr allow names st)).tr := by
  intro names
  induction names with
  | nil => intro st x h; exact h
  | cons a as ih =>
    intro st x h
    rw [modifiedPhase, List.foldlM_cons]
    cases hs : modifiedStep pr allow st a with
    | error p =>
      have hb : (Except.error p >>= fun st' =>
          List.foldlM (fun st n => modifiedStep pr allow st n) st' as)
          = (Except.error p : Except (MState × MigError) MState) := rfl
      rw [hb]
      have := modifiedStep_tr_mono pr allow st a x h
      rw [hs] at this
      exact this
    | ok st' =>
      have hb : (Except.ok st' >>= fun st'' =>
          List.foldlM (fun st n => modifiedStep pr allow st n) st'' as)
          = List.foldlM (fun st n => modifiedStep pr allow st n) st' as := rfl
      rw [hb]
      have h1 := modifiedStep_tr_mono pr allow st a x h
      rw [hs] at h1
      exact ih st' x h1

theorem modifiedPhase_error_shape (pr : Pristine) (allow : Bool) :
    ∀ (names : List String) (st st' : MState) (e : MigError),
      modifiedPhase pr allow names st = .error (st', e) →
      ∃ tb rc, e = .destructiveColumns tb rc := by
  intro names
  induction names with
  | nil => intro st st' e h; exact Except.noConfusion h
  | cons a as ih =>
    intro st st' e h
    rw [modifiedPhase, List.foldlM_cons] at h
    cases hs : modifiedStep pr allow st a with
    | error p =>
      rw [hs] at h
      have hb : (Except.error p >>= fun st'' =>
          List.foldlM (fun st n => modifiedStep pr allow st n) st'' as)
          = (Except.error p : Except (MState × MigError) MState) := rfl
      rw [hb] at h
      have hp : p = (st', e) := by
        cases h; rfl
      unfold modifiedStep at hs
      cases hl : pr.tables.lookup a with
      | none => rw [hl] at hs; cases hs
      | some sql =>
        simp only [hl] at hs
        by_cases hg : allow = false ∧
            (colsLookup (logExecute st (.createTable (a ++ "_migration_new")
                (renameWord a (a ++ "_migration_new") sql))).db.cols a).filter
              (fun c => !((colsLookup pr.cols a).contains c)) ≠ []
        · rw [if_pos hg] at hs
          cases hs
          cases hp
          exact ⟨a, _, rfl⟩
        · rw [if_neg hg] at hs; cases hs
    | ok st'' =>
      rw [hs] at h
      have hb : (Except.ok st'' >>= fun s =>
          List.foldlM (fun st n => modifiedStep pr allow st n) s as)
          = List.foldlM (fun st n => modifiedStep pr allow st n) st'' as := rfl
      rw [hb] at h
      exact ih st'' st' e h

theorem newTablesPhase_tr_mem (pt : List (String × String)) (names : List String)
    (st : MState) (x : Eff) (h : x ∈ (newTablesPhase pt names st).tr) :
    x ∈ st.tr ∨ ∃ n ∈ names, ∃ sql, pt.lookup n = some sql ∧ x = .createTable n sql := by
  refine foldl_tr_mem _ (fun n x => ∃ sql, pt.lookup n = some sql ∧ x = .createTable n sql)
    ?_ names st x h
  intro st' a x' hx
  cases hl : pt.lookup a with
  | none => rw [hl] at hx; exact Or.inl hx
  | some sql =>
    rw [hl] at hx
    rcases mem_tr_logExecute hx with h1 | h1
    · exact Or.inl h1
    · exact Or.inr ⟨sql, hl, h1⟩

theorem newTablesPhase_tr_mono (pt : List (String × String)) (names : List String)
    (st : MState) (x : Eff) (h : x ∈ st.tr) : x ∈ (newTablesPhase pt names st).tr := by
  refine foldl_tr_mono _ ?_ names st x h
  intro st' a x' hx
  cases hl : pt.lookup a with
  | none => exact hx
  | some sql => exact tr_mem_logExecute _ _ hx

theorem removedPhase_tr_mem (names : List String) (st : MState) (x : Eff)
    (h : x ∈ (removedPhase names st).tr) :
    x ∈ st.tr ∨ ∃ n ∈ names, x = .dropTable n := by
  refine foldl_tr_mem _ (fun n x => x = .dropTable n) ?_ names st x h
  intro st' a x' hx
  rcases mem_tr_logExecute hx with h1 | h1
  · exact Or.inl h1
  · exact Or.inr h1

theorem removedPhase_tr_mono (names : List String) (st : MState) (x : Eff)
    (h : x ∈ st.tr) : x ∈ (removedPhase names st).tr :=
  foldl_tr_mono _ (fun st' a x' hx => tr_mem_logExecute _ _ hx) names st x h

theorem indexPhase_tr_mem (pidx : List (String × Option String)) (st : MState) (x : Eff)
    (h : x ∈ (indexPhase pidx st).tr) :
    x ∈ st.tr
    ∨ (∃ n ∈ keysOf st.db.indices,
          (keysOf pidx).contains n = false ∧ x = .dropIndex n)
    ∨ (∃ e ∈ pidx,
          ((keysOf st.db.indices).contains e.1 = false ∧ x = .createIndex e.1 e.2)
          ∨ ((keysOf st.db.indices).contains e.1 = true
              ∧ (e.2 != (st.db.indices.lookup e.1).getD none) = true
              ∧ (x = .dropIndex e.1 ∨ x = .createIndex e.1 e.2))) := by
  unfold indexPhase at h
  have hstep2 : ∀ (st' : MState) (a : String × Option String) (x' : Eff),
      x' ∈ ((if !((keysOf st.db.indices).contains a.1)
          then logExecute st' (.createIndex a.1 a.2)
          else if a.2 != (st.db.indices.lookup a.1).getD none
          then logExecute (logExecute st' (.dropIndex a.1)) (.createIndex a.1 a.2)
          else st')).tr →
      x' ∈ st'.tr ∨
        (((keysOf st.db.indices).contains a.1 = false ∧ x' = .createIndex a.1 a.2)
        ∨ ((keysOf st.db.indices).contains a.1 = true
            ∧ (a.2 != (st.db.indices.lookup a.1).getD none) = true
            ∧ (x' = .dropIndex a.1 ∨ x' = .createIndex a.1 a.2))) := by
    intro st' a x' hx
    by_cases hc : (keysOf st.db.indices).contains a.1 = true
    · rw [if_neg (by rw [hc]; decide)] at hx
      by_cases hch : a.2 != (st.db.indices.lookup a.1).getD none
      · rw [if_pos hch] at hx
        rcases mem_tr_logExecute hx with h1 | h1
        · rcases mem_tr_logExecute h1 with h2 | h2
          · exact Or.inl h2
          · exact Or.inr (Or.inr ⟨hc, hch, Or.inl h2⟩)
        · exact Or.inr (Or.inr ⟨hc, hch, Or.inr h1⟩)
      · rw [if_neg hch] at hx; exact Or.inl hx
    · have hcf : (keysOf st.db.indices).contains a.1 = false := by
        revert hc; cases (keysOf st.db.indices).contains a.1 <;> simp
      rw [if_pos (by rw [hcf]; decide)] at hx
      rcases mem_tr_logExecute hx with h1 | h1
      · exact Or.inl h1
      · exact Or.inr (Or.inl ⟨hcf, h1⟩)
  have hstep1 : ∀ (st' : MState) (a : String) (x' : Eff),
      x' ∈ ((if (keysOf pidx).contains a then st'
              else logExecute st' (.dropIndex a))).tr →
      x' ∈ st'.tr ∨ ((keysOf pidx).contains a = false ∧ x' = .dropIndex a) := by
    intro st' a x' hx
    by_cases hc : (keysOf pidx).contains a
    · rw [if_pos hc] at hx; exact Or.inl hx
    · rw [if_neg hc] at hx
      rcases mem_tr_logExecute hx with h1 | h1
      · exact Or.inl h1
      · exact Or.inr ⟨by simpa using hc, h1⟩
  have h2 := foldl_tr_mem _ _ hstep2 pidx _ x h
  rcases h2 with h3 | ⟨e, he, hp⟩
  · have h4 := foldl_tr_mem _ _ hstep1 (keysOf st.db.indices) st x h3
    rcases h4 with h5 | ⟨n, hn, hp⟩
    · exact Or.inl h5
    · exact Or.inr (Or.inl ⟨n, hn, hp⟩)
  · exact Or.inr (Or.inr ⟨e, he, hp⟩)

theorem indexPhase_tr_mono (pidx : List (String × Option String)) (st : MState) (x : Eff)
    (h : x ∈ st.tr) : x ∈ (indexPhase pidx st).tr := by
  unfold indexPhase
  refine foldl_tr_mono _ ?_ pidx _ x (foldl_tr_mono _ ?_ _ st x h)
  · intro st' a x' hx
    by_cases hc : !((keysOf st.db.indices).contains a.1)
    · rw [if_pos hc]; exact tr_mem_logExecute _ _ hx
    · rw [if_neg hc]
      by_cases hch : a.2 != (st.db.indices.lookup a.1).getD none
      · rw [if_pos hch]; exact tr_mem_logExecute _ _ (tr_mem_logExecute _ _ hx)
      · rw [if_neg hch]; exact hx
  · intro st' a x' hx
    by_cases hc : (keysOf pidx).contains a
    · rw [if_pos hc]; exact hx
    · rw [if_neg hc]; exact tr_mem_logExecute _ _ hx

theorem pragmaPhase_tr_mem (uv : Int) (st : MState) (x : Eff)
    (h : x ∈ (pragmaPhase uv st).tr) :
    x ∈ st.tr ∨ x = .setPragma "user_version" uv := by
  unfold pragmaPhase at h
  by_cases hc : st.db.userVersion ≠ uv
  · rw [if_pos hc] at h
    exact mem_tr_logExecute h
  · rw [if_neg hc] at h; exact Or.inl h

theorem pragmaPhase_tr_mono (uv : Int) (st : MState) (x : Eff) (h : x ∈ st.tr) :
    x ∈ (pragmaPhase uv st).tr := by
  unfold pragmaPhase
  by_cases hc : st.db.userVersion ≠ uv
  · rw [if_pos hc]; exact tr_mem_logExecute _ _ h
  · rw [if_neg hc]; exact h

theorem cleanupPhase_tr_mem (st : MState) (x : Eff)
    (h : x ∈ (cleanupPhase st).tr) :
    x ∈ st.tr ∨ ∃ n, x = .dropTableIfExists n := by
  unfold cleanupPhase at h
  have hstep : ∀ (st' : MState) (a : String) (x' : Eff),
      x' ∈ (logExecute st' (.dropTableIfExists a)).tr →
      x' ∈ st'.tr ∨ x' = .dropTableIfExists a := by
    intro st' a x' hx
    rcases mem_tr_logExecute hx with h1 | h1
    · exact Or.inl h1
    · exact Or.inr h1
  have h2 := foldl_tr_mem _ _ hstep _ st x h
  rcases h2 with h1 | ⟨n, _, hp⟩
  · exact Or.inl h1
  · exact Or.inr ⟨n, hp⟩

theorem cleanupPhase_tr_mono (st : MState) (x : Eff) (h : x ∈ st.tr) :
    x ∈ (cleanupPhase st).tr := by
  unfold cleanupPhase
  exact foldl_tr_mono _ (fun st' a x' hx => tr_mem_logExecute _ _ hx) _ st x h

/-! ## List helpers -/

theorem contains_eq_true_of_mem {l : List String} {a : String} (h : a ∈ l) :
    l.contains a = true := List.elem_iff.mpr h

theorem mem_of_contains_eq_true {l : List String} {a : String} (h : l.contains a = true) :
    a ∈ l := List.elem_iff.mp h

theorem keysOf_cons {α : Type} (p : String × α) (t : List (String × α)) :
    keysOf (p :: t) = p.1 :: keysOf t := rfl

theorem mem_keysOf {α : Type} {l : List (String × α)} {p : String × α} (h : p ∈ l) :
    p.1 ∈ keysOf l := List.mem_map.mpr ⟨p, h, rfl⟩

theorem lookup_cons_eq {α : Type} (k : String) (w : α) (t : List (String × α)) :
    ((k, w) :: t).lookup k = some w := by
  simp [List.lookup]

theorem lookup_cons_ne {α : Type} {n k : String} (w : α) (t : List (String × α))
    (h : n ≠ k) : ((k, w) :: t).lookup n = t.lookup n := by
  simp [List.lookup, beq_eq_false_iff_ne.mpr h]

theorem mem_keys_of_lookup {α : Type} {l : List (String × α)} {n : String} {v : α}
    (h : l.lookup n = some v) : n ∈ keysOf l := by
  induction l with
  | nil => cases h
  | cons p t ih =>
    obtain ⟨k, w⟩ := p
    by_cases hk : n = k
    · rw [keysOf_cons]; exact hk ▸ List.mem_cons_self _ _
    · rw [lookup_cons_ne w t hk] at h
      exact List.mem_cons_of_mem _ (ih h)

theorem lookup_eq_of_nodup {α : Type} {l : List (String × α)} {n : String} {v : α}
    (hnd : (keysOf l).Nodup) (hm : (n, v) ∈ l) : l.lookup n = some v := by
  induction l with
  | nil => cases hm
  | cons p t ih =>
    obtain ⟨k, w⟩ := p
    rw [keysOf_cons] at hnd
    rcases List.mem_cons.mp hm with heq | hmem
    · rw [show n = k from congrArg Prod.fst heq, show v = w from congrArg Prod.snd heq]
      exact lookup_cons_eq k w t
    · have hk : n ≠ k := by
        intro he
        exact (List.nodup_cons.mp hnd).1 (by rw [← he]; exact mem_keysOf (p := (n, v)) hmem)
      rw [lookup_cons_ne w t hk]
      exact ih (List.nodup_cons.mp hnd).2 hmem

/-! ## Run-level structure of `migrate` -/

theorem migrate_ok_shape (db0 : DbState) (pr : Pristine) (allow : Bool)
    (h : (migrate db0 pr allow).err = none) :
    ¬(removedTablesOf db0.tables pr.tables ≠ [] ∧ allow = false)
    ∧ ∃ st3,
      modifiedPhase pr allow (modifiedTablesOf db0.tables pr.tables)
          (removedPhase (removedTablesOf db0.tables pr.tables)
            (newTablesPhase pr.tables (newTablesOf db0.tables pr.tables) ⟨db0, 0, []⟩))
        = .ok st3
      ∧ migrate db0 pr allow =
          ⟨none,
           (cleanupPhase (pragmaPhase pr.userVersion (indexPhase pr.indices st3))).db,
           (cleanupPhase (pragmaPhase pr.userVersion (indexPhase pr.indices st3))).n,
           (cleanupPhase (pragmaPhase pr.userVersion (indexPhase pr.indices st3))).tr⟩ := by
  by_cases hg : removedTablesOf db0.tables pr.tables ≠ [] ∧ allow = false
  · exact absurd (by unfold migrate at h; rw [if_pos hg] at h; exact h)
      (by simp)
  · refine ⟨hg, ?_⟩
    unfold migrate at h ⊢
    rw [if_neg hg] at h ⊢
    simp only [] at h ⊢
    cases hm : modifiedPhase pr allow (modifiedTablesOf db0.tables pr.tables)
        (removedPhase (removedTablesOf db0.tables pr.tables)
          (newTablesPhase pr.tables (newTablesOf db0.tables pr.tables) ⟨db0, 0, []⟩)) with
    | error p =>
      rw [hm] at h
      obtain ⟨stE, e⟩ := p
      simp at h
    | ok st3 =>
      refine ⟨st3, rfl, ?_⟩
      simp only [fkGuardVal_false] at h ⊢
      rw [if_neg (by simp)]

theorem migrate_tr_mem (db0 : DbState) (pr : Pristine) (allow : Bool) (x : Eff)
    (h : x ∈ (migrate db0 pr allow).trace) :
    (∃ n sql, n ∈ newTablesOf db0.tables pr.tables ∧ x = .createTable n sql)
    ∨ (∃ n, n ∈ removedTablesOf db0.tables pr.tables ∧ x = .dropTable n)
    ∨ (∃ n, n ∈ modifiedTablesOf db0.tables pr.tables ∧ ModEff n x)
    ∨ (∃ n, x = .dropIndex n)
    ∨ (∃ n s, x = .createIndex n s)
    ∨ x = .setPragma "user_version" pr.userVersion
    ∨ (∃ n, x = .dropTableIfExists n) := by
  unfold migrate at h
  by_cases hg : removedTablesOf db0.tables pr.tables ≠ [] ∧ allow = false
  · rw [if_pos hg] at h
    exact absurd h (by simp)
  · rw [if_neg hg] at h
    simp only [] at h
    have base : ∀ y : Eff, y ∈ (phaseOut (modifiedPhase pr allow
        (modifiedTablesOf db0.tables pr.tables)
        (removedPhase (removedTablesOf db0.tables pr.tables)
          (newTablesPhase pr.tables (newTablesOf db0.tables pr.tables) ⟨db0, 0, []⟩)))).tr →
        (∃ n sql, n ∈ newTablesOf db0.tables pr.tables ∧ y = .createTable n sql)
        ∨ (∃ n, n ∈ removedTablesOf db0.tables pr.tables ∧ y = .dropTable n)
        ∨ (∃ n, n ∈ modifiedTablesOf db0.tables pr.tables ∧ ModEff n y) := by
      intro y hy
      rcases modifiedPhase_tr_mem pr allow _ _ y hy with h1 | ⟨n, hn, hp⟩
      · rcases removedPhase_tr_mem _ _ y h1 with h2 | ⟨n, hn, hp⟩
        · rcases newTablesPhase_tr_mem _ _ _ y h2 with h3 | ⟨n, hn, sql, hl, hp⟩
          · exact absurd h3 (by simp)
          · exact Or.inl ⟨n, sql, hn, hp⟩
        · exact Or.inr (Or.inl ⟨n, hn, hp⟩)
      · exact Or.inr (Or.inr ⟨n, hn, hp⟩)
    cases hm : modifiedPhase pr allow (modifiedTablesOf db0.tables pr.tables)
        (removedPhase (removedTablesOf db0.tables pr.tables)
          (newTablesPhase pr.tables (newTablesOf db0.tables pr.tables) ⟨db0, 0, []⟩)) with
    | error p =>
      rw [hm] at h
      obtain ⟨stE, e⟩ := p
      have hx : x ∈ (phaseOut (Except.error (stE, e) :
          Except (MState × MigError) MState)).tr := h
      rw [← hm] at hx
      rcases base x hx with h1 | h1 | h1
      · exact Or.inl h1
      · exact Or.inr (Or.inl h1)
      · exact Or.inr (Or.inr (Or.inl h1))
    | ok st3 =>
      rw [hm] at h
      simp only [fkGuardVal_false] at h
      rw [if_neg (by simp)] at h
      rcases cleanupPhase_tr_mem _ x h with h1 | ⟨n, hp⟩
      · rcases pragmaPhase_tr_mem _ _ x h1 with h2 | hp
        · rcases indexPhase_tr_mem _ _ x h2 with h3 | h3 | h3
          · have hx : x ∈ (phaseOut (Except.ok st3 :
                Except (MState × MigError) MState)).tr := h3
            rw [← hm] at hx
            rcases base x hx with h4 | h4 | h4
            · exact Or.inl h4
            · exact Or.inr (Or.inl h4)
            · exact Or.inr (Or.inr (Or.inl h4))
          · obtain ⟨n, _, _, hp⟩ := h3
            exact Or.inr (Or.inr (Or.inr (Or.inl ⟨n, hp⟩)))
          · obtain ⟨e, _, hcase⟩ := h3
            rcases hcase with ⟨_, hp⟩ | ⟨_, _, hp | hp⟩
            · exact Or.inr (Or.inr (Or.inr (Or.inr (Or.inl ⟨e.1, e.2, hp⟩))))
            · exact Or.inr (Or.inr (Or.inr (Or.inl ⟨e.1, hp⟩)))
            · exact Or.inr (Or.inr (Or.inr (Or.inr (Or.inl ⟨e.1, e.2, hp⟩))))
        · exact Or.inr (Or.inr (Or.inr (Or.inr (Or.inr (Or.inl hp)))))
      · exact Or.inr (Or.inr (Or.inr (Or.inr (Or.inr (Or.inr ⟨n, hp⟩)))))

theorem modifiedTablesOf_subset {tables pt : List (String × String)} {n : String}
    (h : n ∈ modifiedTablesOf tables pt) : n ∈ keysOf pt := by
  obtain ⟨e, he, heq⟩ := List.mem_map.mp h
  exact heq ▸ mem_keysOf (List.mem_of_mem_filter he)

/-- C4 (the claim is right, the code is not): the foreign-key post-check can
never fire. At a live database with pending foreign-key violations and a
target schema that enables `foreign_keys`, the run completes without error;
in general no input makes `migrate` raise `ForeignKeyViolation`, because the
guard at line 257 reads property `0` of a row object keyed `foreign_keys`. -/
theorem fk_check_is_dead_code :
    (migrate ⟨[("t", "CREATE TABLE t(x)")], [], [], 0, 1, 3⟩
        ⟨[("t", "CREATE TABLE t(x)")], [], [], 0, 1⟩ false).err = none
    ∧ (⟨[("t", "CREATE TABLE t(x)")], [], [], 0, 1, 3⟩ : DbState).fkViolations > 0
    ∧ (⟨[("t", "CREATE TABLE t(x)")], [], [], 0, 1⟩ : Pristine).foreignKeys = 1
    ∧ ∀ (db : DbState) (pr : Pristine) (allow : Bool),
        (migrate db pr allow).err ≠ some .foreignKeyViolation := by
  refine ⟨by decide, by decide, by decide, ?_⟩
  intro db pr allow hc
  unfold migrate at hc
  by_cases hg : removedTablesOf db.tables pr.tables ≠ [] ∧ allow = false
  · rw [if_pos hg] at hc
    simp at hc
  · rw [if_neg hg] at hc
    simp only [] at hc
    cases hm : modifiedPhase pr allow (modifiedTablesOf db.tables pr.tables)
        (removedPhase (removedTablesOf db.tables pr.tables)
          (newTablesPhase pr.tables (newTablesOf db.tables pr.tables) ⟨db, 0, []⟩)) with
    | error p =>
      rw [hm] at hc
      obtain ⟨stE, e⟩ := p
      have heq : e = MigError.foreignKeyViolation := Option.some.inj hc
      obtain ⟨tb, rc, he⟩ := modifiedPhase_error_shape pr allow _ _ _ _ hm
      rw [heq] at he
      exact MigError.noConfusion he
    | ok st3 =>
      rw [hm] at hc
      simp only [fkGuardVal_false] at hc
      rw [if_neg (by simp)] at hc
      simp at hc

/-- C9: a current table carrying the reserved `_migration_new` suffix is never
classified into `removedTables`; when every current-not-in-target table
carries the suffix, no `DestructiveChangeRejected` for tables is raised even
with `allowDeletions = false`; and no `DROP TABLE` targeting such a table is
ever executed by the removed-tables phase (nor by any other phase: the only
drops of it are the `DROP TABLE IF EXISTS` cleanup statements). -/
theorem reserved_suffix_never_user_deleted (db0 : DbState) (pr : Pristine) (t : String)
    (ht : t ∈ keysOf db0.tables)
    (hsuf : strEndsWith t "_migration_new" = true)
    (hnp : (keysOf pr.tables).contains t = false)
    (halone : ∀ n ∈ keysOf db0.tables, (keysOf pr.tables).contains n = false →
        strEndsWith n "_migration_new" = true) :
    t ∉ removedTablesOf db0.tables pr.tables
    ∧ (∀ ns, (migrate db0 pr false).err ≠ some (.destructiveTables ns))
    ∧ .dropTable t ∉ (migrate db0 pr false).trace := by
  have hrem : removedTablesOf db0.tables pr.tables = [] := by
    rw [removedTablesOf, List.filter_eq_nil_iff]
    intro a ha
    have h1 := List.mem_filter.mp ha
    have h2 := halone a h1.1 (by simpa using h1.2)
    simp [h2]
  refine ⟨not_mem_removedTablesOf_of_suffix hsuf, ?_, ?_⟩
  · intro ns hc
    unfold migrate at hc
    rw [if_neg (by simp [hrem])] at hc
    simp only [] at hc
    cases hm : modifiedPhase pr false (modifiedTablesOf db0.tables pr.tables)
        (removedPhase (removedTablesOf db0.tables pr.tables)
          (newTablesPhase pr.tables (newTablesOf db0.tables pr.tables) ⟨db0, 0, []⟩)) with
    | error p =>
      rw [hm] at hc
      obtain ⟨stE, e⟩ := p
      have heq : e = MigError.destructiveTables ns := Option.some.inj hc
      obtain ⟨tb, rc, he⟩ := modifiedPhase_error_shape pr false _ _ _ _ hm
      rw [heq] at he
      exact MigError.noConfusion he
    | ok st3 =>
      rw [hm] at hc
      simp only [fkGuardVal_false] at hc
      rw [if_neg (by simp)] at hc
      simp at hc
  · intro hmem
    rcases migrate_tr_mem db0 pr false _ hmem with
      ⟨n, sql, hn, hx⟩ | ⟨n, hn, hx⟩ | ⟨n, hn, hx⟩ | ⟨n, hx⟩ | ⟨n, s, hx⟩ | hx | ⟨n, hx⟩
    · exact Eff.noConfusion hx
    · rw [hrem] at hn
      cases hn
    · rcases hx with ⟨sql, hx⟩ | ⟨sql, hx⟩ | hx | hx
      · exact Eff.noConfusion hx
      · exact Eff.noConfusion hx
      · have htn : t = n := by injection hx
        have hmemp : n ∈ keysOf pr.tables := modifiedTablesOf_subset hn
        rw [← htn] at hmemp
        rw [contains_eq_true_of_mem hmemp] at hnp
        exact Bool.noConfusion hnp
      · exact Eff.noConfusion hx
    · exact Eff.noConfusion hx
    · exact Eff.noConfusion hx
    · exact Eff.noConfusion hx
    · exact Eff.noConfusion hx

/-- Witness for C9 at a concrete input. -/
theorem reserved_suffix_never_user_deleted_witness :
    "x_migration_new" ∉ removedTablesOf
        [("keep", "CREATE TABLE keep(a)"), ("x_migration_new", "CREATE TABLE x_migration_new(a)")]
        [("keep", "CREATE TABLE keep(a)")]
    ∧ (∀ ns, (migrate
        ⟨[("keep", "CREATE TABLE keep(a)"), ("x_migration_new", "CREATE TABLE x_migration_new(a)")],
          [], [], 0, 0, 0⟩
        ⟨[("keep", "CREATE TABLE keep(a)")], [], [], 0, 0⟩ false).err
          ≠ some (.destructiveTables ns))
    ∧ .dropTable "x_migration_new" ∉ (migrate
        ⟨[("keep", "CREATE TABLE keep(a)"), ("x_migration_new", "CREATE TABLE x_migration_new(a)")],
          [], [], 0, 0, 0⟩
        ⟨[("keep", "CREATE TABLE keep(a)")], [], [], 0, 0⟩ false).trace :=
  reserved_suffix_never_user_deleted
    ⟨[("keep", "CREATE TABLE keep(a)"), ("x_migration_new", "CREATE TABLE x_migration_new(a)")],
      [], [], 0, 0, 0⟩
    ⟨[("keep", "CREATE TABLE keep(a)")], [], [], 0, 0⟩ "x_migration_new"
    (by decide) (by decide) (by decide) (by decide)

/-! ## user_version preservation before the pragma phase -/

theorem newTablesPhase_uv (pt : List (String × String)) (names : List String) (st : MState) :
    (newTablesPhase pt names st).db.userVersion = st.db.userVersion := by
  refine foldl_preserve _ (fun s => s.db.userVersion) ?_ names st
  intro st' a
  cases hl : pt.lookup a with
  | none => rfl
  | some sql => exact logExecute_uv _ _ (fun p v h => Eff.noConfusion h)

theorem removedPhase_uv (names : List String) (st : MState) :
    (removedPhase names st).db.userVersion = st.db.userVersion := by
  refine foldl_preserve _ (fun s => s.db.userVersion) ?_ names st
  intro st' a
  exact logExecute_uv _ _ (fun p v h => Eff.noConfusion h)

theorem modifiedStep_uv (pr : Pristine) (allow : Bool) (st : MState) (n : String) :
    (phaseOut (modifiedStep pr allow st n)).db.userVersion = st.db.userVersion := by
  unfold modifiedStep
  cases hl : pr.tables.lookup n with
  | none => rfl
  | some sql =>
    simp only
    by_cases hg : allow = false ∧
        (colsLookup (logExecute st (.createTable (n ++ "_migration_new")
            (renameWord n (n ++ "_migration_new") sql))).db.cols n).filter
          (fun c => !((colsLookup pr.cols n).contains c)) ≠ [] <;>
      [rw [if_pos hg]; rw [if_neg hg]] <;> simp only [phaseOut]
    · exact logExecute_uv _ _ (fun p v h => Eff.noConfusion h)
    · rw [logExecute_uv _ _ (fun p v h => Eff.noConfusion h),
        logExecute_uv _ _ (fun p v h => Eff.noConfusion h),
        logExecute_uv _ _ (fun p v h => Eff.noConfusion h),
        logExecute_uv _ _ (fun p v h => Eff.noConfusion h)]

theorem modifiedPhase_uv (pr : Pristine) (allow : Bool) :
    ∀ (names : List String) (st : MState),
      (phaseOut (modifiedPhase pr allow names st)).db.userVersion = st.db.userVersion := by
  intro names
  induction names with
  | nil => intro st; rfl
  | cons a as ih =>
    intro st
    rw [modifiedPhase, List.foldlM_cons]
    cases hs : modifiedStep pr allow st a with
    | error p =>
      have hb : (Except.error p >>= fun st' =>
          List.foldlM (fun st n => modifiedStep pr allow st n) st' as)
          = (Except.error p : Except (MState × MigError) MState) := rfl
      rw [hb]
      have := modifiedStep_uv pr allow st a
      rw [hs] at this
      exact this
    | ok st' =>
      have hb : (Except.ok st' >>= fun st'' =>
          List.foldlM (fun st n => modifiedStep pr allow st n) st'' as)
          = List.foldlM (fun st n => modifiedStep pr allow st n) st' as := rfl
      rw [hb]
      have h1 := modifiedStep_uv pr allow st a
      rw [hs] at h1
      rw [← h1]
      exact ih st'

theorem indexPhase_uv (pidx : List (String × Option String)) (st : MState) :
    (indexPhase pidx st).db.userVersion = st.db.userVersion := by
  unfold indexPhase
  have h2 : ∀ (st' : MState) (a : String × Option String),
      ((if !((keysOf st.db.indices).contains a.1)
          then logExecute st' (.createIndex a.1 a.2)
          else if a.2 != (st.db.indices.lookup a.1).getD none
          then logExecute (logExecute st' (.dropIndex a.1)) (.createIndex a.1 a.2)
          else st')).db.userVersion = st'.db.userVersion := by
    intro st' a
    by_cases hc : !((keysOf st.db.indices).contains a.1)
    · rw [if_pos hc]
      exact logExecute_uv _ _ (fun p v h => Eff.noConfusion h)
    · rw [if_neg hc]
      by_cases hch : a.2 != (st.db.indices.lookup a.1).getD none
      · rw [if_pos hch]
        rw [logExecute_uv _ _ (fun p v h => Eff.noConfusion h)]
        exact logExecute_uv _ _ (fun p v h => Eff.noConfusion h)
      · rw [if_neg hch]
  have h1 : ∀ (st' : MState) (a : String),
      ((if (keysOf pidx).contains a then st'
        else logExecute st' (.dropIndex a))).db.userVersion = st'.db.userVersion := by
    intro st' a
    by_cases hc : (keysOf pidx).contains a
    · rw [if_pos hc]
    · rw [if_neg hc]
      exact logExecute_uv _ _ (fun p v h => Eff.noConfusion h)
  rw [foldl_preserve _ (fun s => s.db.userVersion) (fun st' a => h2 st' a) pidx _]
  exact foldl_preserve _ (fun s => s.db.userVersion) (fun st' a => h1 st' a) _ st

/-- C5 (amended): only `user_version` is reconciled. On a successful run whose
live `user_version` differs from the target's, a `SetPragma user_version`
statement is executed; no run, on any input, ever executes a
`SetPragma foreign_keys` statement. -/
theorem only_user_version_reconciled (db0 : DbState) (pr : Pristine) (allow : Bool)
    (hok : (migrate db0 pr allow).err = none)
    (hne : db0.userVersion ≠ pr.userVersion) :
    .setPragma "user_version" pr.userVersion ∈ (migrate db0 pr allow).trace
    ∧ ∀ (db' : DbState) (pr' : Pristine) (allow' : Bool) (v : Int),
        .setPragma "foreign_keys" v ∉ (migrate db' pr' allow').trace := by
  constructor
  · obtain ⟨-, st3, hm, heq⟩ := migrate_ok_shape db0 pr allow hok
    rw [heq]
    have h3 : st3.db.userVersion = db0.userVersion := by
      have hall := modifiedPhase_uv pr allow (modifiedTablesOf db0.tables pr.tables)
        (removedPhase (removedTablesOf db0.tables pr.tables)
          (newTablesPhase pr.tables (newTablesOf db0.tables pr.tables) ⟨db0, 0, []⟩))
      rw [hm] at hall
      rw [show (phaseOut (Except.ok st3)).db.userVersion = st3.db.userVersion from rfl] at hall
      rw [hall, removedPhase_uv, newTablesPhase_uv]
    have huv : (indexPhase pr.indices st3).db.userVersion = db0.userVersion := by
      rw [indexPhase_uv]; exact h3
    apply cleanupPhase_tr_mono
    unfold pragmaPhase
    rw [huv, if_pos hne, setPragma_run]
    exact List.mem_append_right _ (List.mem_singleton.mpr rfl)
  · intro db' pr' allow' v hmem
    rcases migrate_tr_mem db' pr' allow' _ hmem with
      ⟨n, sql, hn, hx⟩ | ⟨n, hn, hx⟩ | ⟨n, hn, hx⟩ | ⟨n, hx⟩ | ⟨n, s, hx⟩ | hx | ⟨n, hx⟩
    · exact Eff.noConfusion hx
    · exact Eff.noConfusion hx
    · rcases hx with ⟨sql, hx⟩ | ⟨sql, hx⟩ | hx | hx
      · exact Eff.noConfusion hx
      · exact Eff.noConfusion hx
      · exact Eff.noConfusion hx
      · exact Eff.noConfusion hx
    · exact Eff.noConfusion hx
    · exact Eff.noConfusion hx
    · have hname : ("foreign_keys" : String) = "user_version" := by injection hx
      exact absurd hname (by decide)
    · exact Eff.noConfusion hx

/-- Witness for C5's amended statement at a concrete input. -/
theorem only_user_version_reconciled_witness :
    .setPragma "user_version" 7 ∈ (migrate ⟨[], [], [], 0, 0, 0⟩ ⟨[], [], [], 7, 0⟩ false).trace
    ∧ ∀ (db' : DbState) (pr' : Pristine) (allow' : Bool) (v : Int),
        .setPragma "foreign_keys" v ∉ (migrate db' pr' allow').trace := by
  have h := only_user_version_reconciled ⟨[], [], [], 0, 0, 0⟩ ⟨[], [], [], 7, 0⟩ false
    (by decide) (by decide)
  exact h

/-! ## Leftover cleanup facts -/

theorem dropFold_tables (ns : List String) (st : MState) :
    ((ns.foldl (fun st n => logExecute st (.dropTableIfExists n)) st)).db.tables
      = st.db.tables.filter (fun p => !(ns.contains p.1)) := by
  induction ns generalizing st with
  | nil => simp [List.contains]
  | cons a as ih =>
    rw [List.foldl_cons, ih, dropTableIfExists_run]
    show ((st.db.tables.filter (fun p => p.1 != a)).filter (fun p => !(as.contains p.1))) = _
    rw [List.filter_filter]
    congr 1
    funext p
    by_cases h1 : p.1 = a <;> simp [List.contains_cons, h1]

theorem cleanupPhase_no_leftover (st : MState) :
    ∀ n ∈ keysOf (cleanupPhase st).db.tables, likeMigrationNew n = false := by
  intro n hn
  have hn2 : n ∈ keysOf ((((keysOf st.db.tables).filter likeMigrationNew).foldl
      (fun st n => logExecute st (.dropTableIfExists n)) st)).db.tables := hn
  rw [dropFold_tables] at hn2
  obtain ⟨p, hp, hpn⟩ := List.mem_map.mp hn2
  have h1 := List.mem_filter.mp hp
  by_contra hcon
  have hlike : likeMigrationNew n = true := by
    revert hcon; cases likeMigrationNew n <;> simp
  have hmem : p.1 ∈ (keysOf st.db.tables).filter likeMigrationNew :=
    List.mem_filter.mpr ⟨mem_keysOf h1.1, by rw [hpn]; exact hlike⟩
  have h2 := h1.2
  rw [contains_eq_true_of_mem hmem] at h2
  exact Bool.noConfusion h2

theorem like_of_endsWith {n : String} (h : strEndsWith n "_migration_new" = true) :
    likeMigrationNew n = true := by
  have hsuf : "_migration_new".data <:+ n.data := List.isSuffixOf_iff_suffix.mp h
  obtain ⟨pre, hpre⟩ := hsuf
  show (decide (14 ≤ n.data.length)
      && likeTailMatches likePatTail (n.data.drop (n.data.length - 14))) = true
  rw [← hpre, List.length_append,
    show ("_migration_new".data).length = 14 from by decide,
    show pre.length + 14 - 14 = pre.length from by omega,
    List.drop_left pre _]
  simp only [Bool.and_eq_true, decide_eq_true_eq]
  exact ⟨by omega, by decide⟩

/-- C3 (amended): at the end of every run that completes without raising an
error, every table whose name carries the reserved `_migration_new` suffix has
been dropped: no such table remains in the final live database. (A failing
run, by contrast, never reaches the cleanup — see the counterexample.) -/
theorem successful_run_drops_all_leftovers (db0 : DbState) (pr : Pristine) (allow : Bool)
    (hok : (migrate db0 pr allow).err = none) :
    ∀ n ∈ keysOf (migrate db0 pr allow).db.tables, strEndsWith n "_migration_new" = false := by
  intro n hn
  obtain ⟨-, st3, hm, heq⟩ := migrate_ok_shape db0 pr allow hok
  rw [heq] at hn
  have hlike := cleanupPhase_no_leftover (pragmaPhase pr.userVersion (indexPhase pr.indices st3)) n hn
  by_contra hcon
  have hsw : strEndsWith n "_migration_new" = true := by
    revert hcon; cases strEndsWith n "_migration_new" <;> simp
  rw [like_of_endsWith hsw] at hlike
  exact Bool.noConfusion hlike

/-- Witness for C3's amended statement at a concrete input. -/
theorem successful_run_drops_all_leftovers_witness :
    decide (∀ n ∈ keysOf (migrate
        ⟨[("a_migration_new", "CREATE TABLE a_migration_new(x)")], [], [], 0, 0, 0⟩
        ⟨[], [], [], 0, 0⟩ false).db.tables,
      strEndsWith n "_migration_new" = false) = true :=
  decide_eq_true (successful_run_drops_all_leftovers
    ⟨[("a_migration_new", "CREATE TABLE a_migration_new(x)")], [], [], 0, 0, 0⟩
    ⟨[], [], [], 0, 0⟩ false (by decide))

theorem self_mem_logExecute_run {st : MState} {e : Eff} {sql : String}
    (h1 : effSql e = some sql) (h2 : trimChars sql.data ≠ []) : e ∈ (logExecute st e).tr := by
  rw [logExecute_run h1 h2]
  exact List.mem_append_right _ (List.mem_singleton.mpr rfl)

theorem newTablesPhase_emits (pt : List (String × String)) (names : List String)
    (st : MState) (n sql : String) (hn : n ∈ names) (hl : pt.lookup n = some sql)
    (hs : trimChars sql.data ≠ []) :
    .createTable n sql ∈ (newTablesPhase pt names st).tr := by
  obtain ⟨l1, l2, rfl⟩ := List.append_of_mem hn
  unfold newTablesPhase
  rw [List.foldl_append, List.foldl_cons]
  refine foldl_tr_mono _ ?_ l2 _ _ ?_
  · intro st' a x hx
    cases hla : pt.lookup a with
    | none => exact hx
    | some s => exact tr_mem_logExecute _ _ hx
  · show Eff.createTable n sql ∈
      (match pt.lookup n with
        | some s => logExecute (List.foldl (fun st n =>
            match pt.lookup n with
            | some sql => logExecute st (.createTable n sql)
            | none => st) st l1) (Eff.createTable n s)
        | none => List.foldl (fun st n =>
            match pt.lookup n with
            | some sql => logExecute st (.createTable n sql)
            | none => st) st l1).tr
    rw [hl]
    exact self_mem_logExecute_run rfl hs

/-- C10: a table that the target schema itself defines under a reserved
`_migration_new` name and that is absent from the live database is classified
as a new table, its `CREATE TABLE` is executed, and the end-of-run cleanup
then drops it again, so a successful run ends without it — and hence with a
table catalog that does not match the target's. -/
theorem target_reserved_table_created_then_dropped (db0 : DbState) (pr : Pristine)
    (n nsql : String)
    (hlook : pr.tables.lookup n = some nsql)
    (hsuf : strEndsWith n "_migration_new" = true)
    (habs : (keysOf db0.tables).contains n = false)
    (hsql : trimChars nsql.data ≠ [])
    (allow : Bool)
    (hok : (migrate db0 pr allow).err = none) :
    n ∈ newTablesOf db0.tables pr.tables
    ∧ .createTable n nsql ∈ (migrate db0 pr allow).trace
    ∧ n ∉ keysOf (migrate db0 pr allow).db.tables
    ∧ keysOf (migrate db0 pr allow).db.tables ≠ keysOf pr.tables := by
  have hnew : n ∈ newTablesOf db0.tables pr.tables :=
    List.mem_filter.mpr ⟨mem_keys_of_lookup hlook, by simp only [habs, Bool.not_false]⟩
  obtain ⟨-, st3, hm, heq⟩ := migrate_ok_shape db0 pr allow hok
  have hnotin : n ∉ keysOf (migrate db0 pr allow).db.tables := by
    intro hn
    rw [heq] at hn
    have hlike := cleanupPhase_no_leftover
      (pragmaPhase pr.userVersion (indexPhase pr.indices st3)) n hn
    rw [like_of_endsWith hsuf] at hlike
    exact Bool.noConfusion hlike
  refine ⟨hnew, ?_, hnotin, ?_⟩
  · rw [heq]
    apply cleanupPhase_tr_mono
    apply pragmaPhase_tr_mono
    apply indexPhase_tr_mono
    have hbase : Eff.createTable n nsql ∈
        (removedPhase (removedTablesOf db0.tables pr.tables)
          (newTablesPhase pr.tables (newTablesOf db0.tables pr.tables) ⟨db0, 0, []⟩)).tr :=
      removedPhase_tr_mono _ _ _ (newTablesPhase_emits pr.tables _ _ n nsql hnew hlook hsql)
    have hmono := modifiedPhase_tr_mono pr allow (modifiedTablesOf db0.tables pr.tables)
      (removedPhase (removedTablesOf db0.tables pr.tables)
        (newTablesPhase pr.tables (newTablesOf db0.tables pr.tables) ⟨db0, 0, []⟩))
      (Eff.createTable n nsql) hbase
    rw [hm] at hmono
    exact hmono
  · intro hkeys
    exact hnotin (hkeys ▸ mem_keys_of_lookup hlook)

/-- Witness for C10 at a concrete input. -/
theorem target_reserved_table_created_then_dropped_witness :
    "foo_migration_new" ∈ newTablesOf ([] : List (String × String))
        [("foo_migration_new", "CREATE TABLE foo_migration_new(x)")]
    ∧ .createTable "foo_migration_new" "CREATE TABLE foo_migration_new(x)"
        ∈ (migrate ⟨[], [], [], 0, 0, 0⟩
            ⟨[("foo_migration_new", "CREATE TABLE foo_migration_new(x)")], [], [], 0, 0⟩
            false).trace
    ∧ "foo_migration_new" ∉ keysOf (migrate ⟨[], [], [], 0, 0, 0⟩
            ⟨[("foo_migration_new", "CREATE TABLE foo_migration_new(x)")], [], [], 0, 0⟩
            false).db.tables
    ∧ keysOf (migrate ⟨[], [], [], 0, 0, 0⟩
            ⟨[("foo_migration_new", "CREATE TABLE foo_migration_new(x)")], [], [], 0, 0⟩
            false).db.tables
        ≠ keysOf [("foo_migration_new", "CREATE TABLE foo_migration_new(x)")] :=
  target_reserved_table_created_then_dropped ⟨[], [], [], 0, 0, 0⟩
    ⟨[("foo_migration_new", "CREATE TABLE foo_migration_new(x)")], [], [], 0, 0⟩
    "foo_migration_new" "CREATE TABLE foo_migration_new(x)"
    (by decide) (by decide) (by decide) (by decide) false (by decide)

/-! ## The no-op run on a matching schema -/

theorem filter_not_contains_self (l : List String) :
    l.filter (fun n => !(l.contains n)) = [] := by
  rw [List.filter_eq_nil_iff]
  intro a ha
  rw [contains_eq_true_of_mem ha]
  decide

theorem newTablesOf_self (l : List (String × String)) : newTablesOf l l = [] :=
  filter_not_contains_self _

theorem removedTablesOf_self (l : List (String × String)) : removedTablesOf l l = [] := by
  rw [removedTablesOf, filter_not_contains_self]
  rfl

theorem modifiedTablesOf_self (l : List (String × String)) (hnd : (keysOf l).Nodup) :
    modifiedTablesOf l l = [] := by
  rw [modifiedTablesOf]
  have hfil : l.filter (fun e =>
      match l.lookup e.1 with
      | some existingSql => normaliseSql existingSql != normaliseSql e.2
      | none => false) = [] := by
    rw [List.filter_eq_nil_iff]
    intro e he
    have hl : l.lookup e.1 = some e.2 :=
      lookup_eq_of_nodup hnd (by rw [Prod.mk.eta]; exact he)
    simp [hl]
  rw [hfil]
  rfl

theorem indexPhase_self (pidx : List (String × Option String)) (st : MState)
    (hidx : st.db.indices = pidx) (hnd : (keysOf pidx).Nodup) :
    indexPhase pidx st = st := by
  unfold indexPhase
  rw [hidx]
  simp only []
  have h1 : List.foldl (fun st n => if (keysOf pidx).contains n = true then st
      else logExecute st (Eff.dropIndex n)) st (keysOf pidx) = st :=
    foldl_eq_self _ _ _ (fun st' a ha => if_pos (contains_eq_true_of_mem ha))
  rw [h1]
  apply foldl_eq_self
  intro st' e he
  rw [if_neg (by rw [contains_eq_true_of_mem (mem_keysOf he)]; decide)]
  have hl : pidx.lookup e.1 = some e.2 :=
    lookup_eq_of_nodup hnd (by rw [Prod.mk.eta]; exact he)
  rw [hl]
  simp

/-- C2 (amended): on a database whose catalog matches the target's (same
tables, indices, tracked pragma values; catalog names unique) and with no
table name matching the cleanup pattern `LIKE '%_migration_new'`, `migrate`
executes zero operations — no error, database untouched, `nChanges = 0`,
empty trace — and the entry point reports `changed = false`. -/
theorem migrate_noop_on_matching (db0 : DbState) (pr : Pristine) (allow : Bool)
    (htab : db0.tables = pr.tables) (hidx : db0.indices = pr.indices)
    (huv : db0.userVersion = pr.userVersion) (hfk : db0.foreignKeys = pr.foreignKeys)
    (hndT : (keysOf pr.tables).Nodup) (hndI : (keysOf pr.indices).Nodup)
    (hlike : ∀ n ∈ keysOf pr.tables, likeMigrationNew n = false) :
    migrate db0 pr allow = ⟨none, db0, 0, []⟩
    ∧ dumbMigrateDb db0 pr allow = .ok (db0, false) := by
  have hmain : migrate db0 pr allow = ⟨none, db0, 0, []⟩ := by
    unfold migrate
    rw [htab, removedTablesOf_self, newTablesOf_self, modifiedTablesOf_self pr.tables hndT]
    rw [if_neg (by simp)]
    simp only [newTablesPhase, removedPhase, modifiedPhase, List.foldl_nil, List.foldlM_nil]
    have hidx0 : indexPhase pr.indices ⟨db0, 0, []⟩ = ⟨db0, 0, []⟩ :=
      indexPhase_self pr.indices ⟨db0, 0, []⟩ (by exact hidx) hndI
    have hpr : pragmaPhase pr.userVersion (⟨db0, 0, []⟩ : MState) = ⟨db0, 0, []⟩ := by
      unfold pragmaPhase
      rw [if_neg (by simp [huv])]
    have hclean : cleanupPhase (⟨db0, 0, []⟩ : MState) = ⟨db0, 0, []⟩ := by
      unfold cleanupPhase
      have hfil : (keysOf (⟨db0, 0, []⟩ : MState).db.tables).filter likeMigrationNew = [] := by
        rw [List.filter_eq_nil_iff]
        intro a ha
        have : likeMigrationNew a = false := by
          apply hlike
          rw [← htab]
          exact ha
        simp [this]
      rw [hfil]
      rfl
    rw [show ((pure (⟨db0, 0, []⟩ : MState)) :
        Except (MState × MigError) MState) = Except.ok ⟨db0, 0, []⟩ from rfl]
    simp only [hidx0, hpr, fkGuardVal_false]
    rw [if_neg (by simp)]
    rw [hclean]
  refine ⟨hmain, ?_⟩
  unfold dumbMigrateDb
  rw [hmain]
  rfl

/-- Witness for C2's amended statement at a concrete input. -/
theorem migrate_noop_on_matching_witness :
    migrate ⟨[("users", "CREATE TABLE users(id INTEGER)")],
        [("i", some "CREATE INDEX i ON users(id)")], [], 5, 1, 0⟩
      ⟨[("users", "CREATE TABLE users(id INTEGER)")],
        [("i", some "CREATE INDEX i ON users(id)")], [], 5, 1⟩ false
      = ⟨none, ⟨[("users", "CREATE TABLE users(id INTEGER)")],
          [("i", some "CREATE INDEX i ON users(id)")], [], 5, 1, 0⟩, 0, []⟩
    ∧ dumbMigrateDb ⟨[("users", "CREATE TABLE users(id INTEGER)")],
        [("i", some "CREATE INDEX i ON users(id)")], [], 5, 1, 0⟩
      ⟨[("users", "CREATE TABLE users(id INTEGER)")],
        [("i", some "CREATE INDEX i ON users(id)")], [], 5, 1⟩ false
      = .ok (⟨[("users", "CREATE TABLE users(id INTEGER)")],
          [("i", some "CREATE INDEX i ON users(id)")], [], 5, 1, 0⟩, false) :=
  migrate_noop_on_matching
    ⟨[("users", "CREATE TABLE users(id INTEGER)")],
      [("i", some "CREATE INDEX i ON users(id)")], [], 5, 1, 0⟩
    ⟨[("users", "CREATE TABLE users(id INTEGER)")],
      [("i", some "CREATE INDEX i ON users(id)")], [], 5, 1⟩ false
    rfl rfl rfl rfl (by decide) (by decide) (by decide)

/-! ## Exact trace of the index, pragma and cleanup phases -/

theorem logExecute_tr_eq (st : MState) (e : Eff) :
    (logExecute st e).tr = st.tr ++ (match effSql e with
      | some q => if trimChars q.data ≠ [] then [e] else []
      | none => []) := by
  unfold logExecute
  cases effSql e with
  | none => simp
  | some q =>
    by_cases h : trimChars q.data ≠ [] <;> simp [h]

/-- The statements one entry of the pristine-index loop would execute for its
`CreateIndex` (`logExecute` skips a null or blank sql). -/
def idxCreateEmit (e : String × Option String) : List Eff :=
  match effSql (Eff.createIndex e.1 e.2) with
  | some q => if trimChars q.data ≠ [] then [Eff.createIndex e.1 e.2] else []
  | none => []

/-- The statements one entry of the pristine-index loop executes, given the
captured live index map `idx`. -/
def idxChangeEmit (idx : List (String × Option String)) (e : String × Option String) :
    List Eff :=
  if !((keysOf idx).contains e.1) then idxCreateEmit e
  else if e.2 != (idx.lookup e.1).getD none then Eff.dropIndex e.1 :: idxCreateEmit e
  else []

/-- The statements the obsolete-index loop executes for one live index name. -/
def idxDropEmit (pidx : List (String × Option String)) (n : String) : List Eff :=
  if (keysOf pidx).contains n then [] else [Eff.dropIndex n]

theorem flatten_map_singleton {α : Type} (f : α → Eff) (l : List α) :
    (l.map (fun a => [f a])).flatten = l.map f := by
  induction l with
  | nil => rfl
  | cons a as ih => simp [ih]

theorem indexPhase_tr_eq (pidx : List (String × Option String)) (st : MState) :
    (indexPhase pidx st).tr = st.tr
      ++ ((keysOf st.db.indices).map (idxDropEmit pidx)).flatten
      ++ (pidx.map (idxChangeEmit st.db.indices)).flatten := by
  have hstep1 : ∀ (st' : MState) (a : String),
      ((if (keysOf pidx).contains a then st' else logExecute st' (.dropIndex a))).tr
        = st'.tr ++ idxDropEmit pidx a := by
    intro st' a
    unfold idxDropEmit
    by_cases hc : (keysOf pidx).contains a
    · rw [if_pos hc, if_pos hc, List.append_nil]
    · rw [if_neg hc, if_neg hc, dropIndex_run]
  have hstep2 : ∀ (st' : MState) (e : String × Option String),
      ((if !((keysOf st.db.indices).contains e.1)
          then logExecute st' (.createIndex e.1 e.2)
          else if e.2 != (st.db.indices.lookup e.1).getD none
          then logExecute (logExecute st' (.dropIndex e.1)) (.createIndex e.1 e.2)
          else st')).tr = st'.tr ++ idxChangeEmit st.db.indices e := by
    intro st' e
    unfold idxChangeEmit
    by_cases hc : !((keysOf st.db.indices).contains e.1)
    · rw [if_pos hc, if_pos hc, logExecute_tr_eq]
      rfl
    · rw [if_neg hc, if_neg hc]
      by_cases hch : e.2 != (st.db.indices.lookup e.1).getD none
      · rw [if_pos hch, if_pos hch, logExecute_tr_eq, dropIndex_run]
        show (st'.tr ++ [Eff.dropIndex e.1]) ++ _ = _
        rw [List.append_assoc]
        rfl
      · rw [if_neg hch, if_neg hch, List.append_nil]
  show (List.foldl _ (List.foldl _ st (keysOf st.db.indices)) pidx).tr = _
  rw [foldl_tr_append _ (idxChangeEmit st.db.indices) hstep2 pidx _,
    foldl_tr_append _ (idxDropEmit pidx) hstep1 (keysOf st.db.indices) st]

theorem pragmaPhase_tr_eq (uv : Int) (st : MState) :
    (pragmaPhase uv st).tr = st.tr
      ++ (if st.db.userVersion ≠ uv then [Eff.setPragma "user_version" uv] else []) := by
  unfold pragmaPhase
  by_cases h : st.db.userVersion ≠ uv
  · rw [if_pos h, if_pos h, setPragma_run]
  · rw [if_neg h, if_neg h, List.append_nil]

theorem cleanupPhase_tr_eq (st : MState) :
    (cleanupPhase st).tr = st.tr
      ++ ((keysOf st.db.tables).filter likeMigrationNew).map (fun n => Eff.dropTableIfExists n) := by
  have h := foldl_tr_append (fun st n => logExecute st (.dropTableIfExists n))
      (fun n => [Eff.dropTableIfExists n]) (fun st' a => by
        show (logExecute st' (Eff.dropTableIfExists a)).tr = st'.tr ++ [Eff.dropTableIfExists a]
        rw [dropTableIfExists_run])
      ((keysOf st.db.tables).filter likeMigrationNew) st
  show ((((keysOf st.db.tables).filter likeMigrationNew).foldl
      (fun st n => logExecute st (.dropTableIfExists n)) st)).tr = _
  rw [h, flatten_map_singleton]

theorem entry_unique_of_nodup {α : Type} {l : List (String × α)} (hnd : (keysOf l).Nodup)
    {e : String × α} {v : α} (he : e ∈ l) (hv : (e.1, v) ∈ l) : e.2 = v := by
  have h1 := lookup_eq_of_nodup hnd (by rw [Prod.mk.eta]; exact he)
  have h2 := lookup_eq_of_nodup hnd hv
  rw [h1] at h2
  exact Option.some.inj h2

theorem migrate_tables_match_shape (db0 : DbState) (pr : Pristine) (allow : Bool)
    (htab : db0.tables = pr.tables) (hndT : (keysOf pr.tables).Nodup) :
    migrate db0 pr allow =
      ⟨none,
       (cleanupPhase (pragmaPhase pr.userVersion (indexPhase pr.indices ⟨db0, 0, []⟩))).db,
       (cleanupPhase (pragmaPhase pr.userVersion (indexPhase pr.indices ⟨db0, 0, []⟩))).n,
       (cleanupPhase (pragmaPhase pr.userVersion (indexPhase pr.indices ⟨db0, 0, []⟩))).tr⟩ := by
  unfold migrate
  rw [htab, removedTablesOf_self, newTablesOf_self, modifiedTablesOf_self pr.tables hndT]
  rw [if_neg (by simp)]
  simp only [newTablesPhase, removedPhase, modifiedPhase, List.foldl_nil, List.foldlM_nil]
  rw [show ((pure (⟨db0, 0, []⟩ : MState)) :
      Except (MState × MigError) MState) = Except.ok ⟨db0, 0, []⟩ from rfl]
  simp only [fkGuardVal_false]
  rw [if_neg (by simp)]

theorem logExecute_tables (st : MState) (e : Eff)
    (h : ∀ db : DbState, (applyEff db e).tables = db.tables) :
    (logExecute st e).db.tables = st.db.tables := by
  unfold logExecute
  cases heq : effSql e with
  | none => rfl
  | some sql =>
    simp only
    by_cases h2 : trimChars sql.data ≠ []
    · rw [if_pos h2]; exact h st.db
    · rw [if_neg h2]

theorem indexPhase_tables (pidx : List (String × Option String)) (st : MState) :
    (indexPhase pidx st).db.tables = st.db.tables := by
  unfold indexPhase
  have h2 : ∀ (st' : MState) (a : String × Option String),
      ((if !((keysOf st.db.indices).contains a.1)
          then logExecute st' (.createIndex a.1 a.2)
          else if a.2 != (st.db.indices.lookup a.1).getD none
          then logExecute (logExecute st' (.dropIndex a.1)) (.createIndex a.1 a.2)
          else st')).db.tables = st'.db.tables := by
    intro st' a
    by_cases hc : !((keysOf st.db.indices).contains a.1)
    · rw [if_pos hc]; exact logExecute_tables _ (.createIndex a.1 a.2) (fun db => rfl)
    · rw [if_neg hc]
      by_cases hch : a.2 != (st.db.indices.lookup a.1).getD none
      · rw [if_pos hch, logExecute_tables _ (.createIndex a.1 a.2) (fun db => rfl)]
        exact logExecute_tables _ (.dropIndex a.1) (fun db => rfl)
      · rw [if_neg hch]
  have h1 : ∀ (st' : MState) (a : String),
      ((if (keysOf pidx).contains a then st'
        else logExecute st' (.dropIndex a))).db.tables = st'.db.tables := by
    intro st' a
    by_cases hc : (keysOf pidx).contains a
    · rw [if_pos hc]
    · rw [if_neg hc]; exact logExecute_tables _ (.dropIndex a) (fun db => rfl)
  rw [foldl_preserve _ (fun s => s.db.tables) (fun st' a => h2 st' a) pidx _]
  exact foldl_preserve _ (fun s => s.db.tables) (fun st' a => h1 st' a) _ st

theorem pragmaPhase_tables (uv : Int) (st : MState) :
    (pragmaPhase uv st).db.tables = st.db.tables := by
  unfold pragmaPhase
  by_cases h : st.db.userVersion ≠ uv
  · rw [if_pos h]
    refine logExecute_tables _ (.setPragma "user_version" uv) (fun db => ?_)
    show (if ("user_version" : String) = "user_version" then { db with userVersion := uv }
      else if ("user_version" : String) = "foreign_keys" then { db with foreignKeys := uv }
      else db).tables = db.tables
    rw [if_pos rfl]
  · rw [if_neg h]

/-- C6 (amended): for an index present in both snapshots — on a run whose
table catalogs agree, so that the index snapshot read after the table phases
is the initial one, and whose target index sql is a non-blank statement —
the migration executes `DropIndex` immediately followed by `CreateIndex` if
and only if the two raw defining SQL strings differ (plain string inequality,
no canonicalization). -/
theorem index_drop_recreate_iff_raw_sql_differs (db0 : DbState) (pr : Pristine) (allow : Bool)
    (htab : db0.tables = pr.tables) (hndT : (keysOf pr.tables).Nodup)
    (name : String) (cs : Option String) (p : String)
    (hcur : (name, cs) ∈ db0.indices)
    (htgt : (name, some p) ∈ pr.indices)
    (hndI : (keysOf db0.indices).Nodup) (hndP : (keysOf pr.indices).Nodup)
    (hp : trimChars p.data ≠ []) :
    (∃ pre post, (migrate db0 pr allow).trace
        = pre ++ [Eff.dropIndex name, Eff.createIndex name (some p)] ++ post)
    ↔ some p ≠ cs := by
  have hshape := migrate_tables_match_shape db0 pr allow htab hndT
  have hlookI : db0.indices.lookup name = some cs := lookup_eq_of_nodup hndI hcur
  have htr : (migrate db0 pr allow).trace
      = ((keysOf db0.indices).map (idxDropEmit pr.indices)).flatten
        ++ (pr.indices.map (idxChangeEmit db0.indices)).flatten
        ++ (if db0.userVersion ≠ pr.userVersion
            then [Eff.setPragma "user_version" pr.userVersion] else [])
        ++ ((keysOf db0.tables).filter likeMigrationNew).map
            (fun n => Eff.dropTableIfExists n) := by
    rw [hshape]
    show (cleanupPhase (pragmaPhase pr.userVersion
        (indexPhase pr.indices ⟨db0, 0, []⟩))).tr = _
    rw [cleanupPhase_tr_eq, pragmaPhase_tr_eq, indexPhase_tr_eq,
      pragmaPhase_tables, indexPhase_tables, indexPhase_uv]
    rfl
  have hchange : idxChangeEmit db0.indices (name, some p)
      = if some p != cs then [Eff.dropIndex name, Eff.createIndex name (some p)]
        else [] := by
    unfold idxChangeEmit
    rw [if_neg (by rw [contains_eq_true_of_mem (mem_keysOf (p := (name, cs)) hcur)]; decide)]
    show (if (some p != (db0.indices.lookup name).getD none) = true then _ else _) = _
    rw [hlookI]
    by_cases hcmp : (some p != cs) = true
    · rw [if_pos (by exact hcmp), if_pos hcmp]
      unfold idxCreateEmit
      show Eff.dropIndex name :: (if trimChars p.data ≠ [] then _ else _) = _
      rw [if_pos hp]
    · rw [if_neg (by exact hcmp), if_neg hcmp]
  have hnotCE : ∀ e : String × Option String, Eff.dropIndex name ∉ idxCreateEmit e := by
    intro e hin
    unfold idxCreateEmit at hin
    simp only [effSql] at hin
    revert hin
    cases e.2 with
    | none => intro hin; cases hin
    | some q =>
      intro hin
      have hin2 : Eff.dropIndex name ∈
          (if trimChars q.data ≠ [] then [Eff.createIndex e.1 (some q)] else []) := hin
      by_cases hq : trimChars q.data ≠ []
      · rw [if_pos hq] at hin2
        exact Eff.noConfusion (List.mem_singleton.mp hin2)
      · rw [if_neg hq] at hin2; cases hin2
  constructor
  · rintro ⟨pre, post, hdecomp⟩ heq
    have hmem : Eff.dropIndex name ∈ (migrate db0 pr allow).trace := by
      rw [hdecomp]
      exact List.mem_append_left _ (List.mem_append_right _ (List.mem_cons_self _ _))
    rw [htr] at hmem
    rcases List.mem_append.mp hmem with h1 | hD
    · rcases List.mem_append.mp h1 with h2 | hC
      · rcases List.mem_append.mp h2 with hA | hB
        · obtain ⟨l, hl, hin⟩ := List.mem_flatten.mp hA
          obtain ⟨n, hn, rfl⟩ := List.mem_map.mp hl
          unfold idxDropEmit at hin
          by_cases hcn : (keysOf pr.indices).contains n
          · rw [if_pos hcn] at hin; cases hin
          · rw [if_neg hcn] at hin
            have hEq : Eff.dropIndex name = Eff.dropIndex n := List.mem_singleton.mp hin
            have hnn : name = n := by injection hEq
            exact hcn (by
              rw [← hnn]
              exact contains_eq_true_of_mem (mem_keysOf (p := (name, some p)) htgt))
        · obtain ⟨l, hl, hin⟩ := List.mem_flatten.mp hB
          obtain ⟨e, he, rfl⟩ := List.mem_map.mp hl
          unfold idxChangeEmit at hin
          by_cases hce : !((keysOf db0.indices).contains e.1)
          · rw [if_pos hce] at hin
            exact hnotCE e hin
          · rw [if_neg hce] at hin
            by_cases hch : e.2 != (db0.indices.lookup e.1).getD none
            · rw [if_pos hch] at hin
              rcases List.mem_cons.mp hin with hd | hcx
              · have hee : name = e.1 := by injection hd
                have he2 : e.2 = some p :=
                  entry_unique_of_nodup hndP he (by rw [← hee]; exact htgt)
                rw [he2] at hch
                rw [← hee, hlookI] at hch
                have : some p ≠ cs := bne_iff_ne.mp (by exact hch)
                exact this heq
              · exact hnotCE e hcx
            · rw [if_neg hch] at hin; cases hin
      · by_cases hcv : db0.userVersion ≠ pr.userVersion
        · rw [if_pos hcv] at hC
          exact Eff.noConfusion (List.mem_singleton.mp hC)
        · rw [if_neg hcv] at hC; cases hC
    · obtain ⟨n, hn, hEq⟩ := List.mem_map.mp hD
      exact Eff.noConfusion hEq
  · intro hne
    obtain ⟨l1, l2, hsplit⟩ := List.append_of_mem htgt
    have hflat : (pr.indices.map (idxChangeEmit db0.indices)).flatten
        = (l1.map (idxChangeEmit db0.indices)).flatten
          ++ [Eff.dropIndex name, Eff.createIndex name (some p)]
          ++ (l2.map (idxChangeEmit db0.indices)).flatten := by
      rw [hsplit, List.map_append, List.map_cons, List.flatten_append, List.flatten_cons]
      rw [hchange, if_pos (bne_iff_ne.mpr hne)]
      rw [List.append_assoc]
    refine ⟨((keysOf db0.indices).map (idxDropEmit pr.indices)).flatten
        ++ (l1.map (idxChangeEmit db0.indices)).flatten,
      (l2.map (idxChangeEmit db0.indices)).flatten
        ++ (if db0.userVersion ≠ pr.userVersion
            then [Eff.setPragma "user_version" pr.userVersion] else [])
        ++ ((keysOf db0.tables).filter likeMigrationNew).map
            (fun n => Eff.dropTableIfExists n), ?_⟩
    rw [htr, hflat]
    simp only [List.append_assoc]

/-- Witness for C6's amended statement at a concrete input. -/
theorem index_drop_recreate_iff_raw_sql_differs_witness :
    (∃ pre post, (migrate
        ⟨[("u", "CREATE TABLE u(b)")], [("j", some "CREATE INDEX j ON u(b)")], [], 0, 0, 0⟩
        ⟨[("u", "CREATE TABLE u(b)")], [("j", some "CREATE INDEX j  ON u(b)")], [], 0, 0⟩
        false).trace
      = pre ++ [Eff.dropIndex "j", Eff.createIndex "j" (some "CREATE INDEX j  ON u(b)")] ++ post)
    ↔ some "CREATE INDEX j  ON u(b)" ≠ some "CREATE INDEX j ON u(b)" :=
  index_drop_recreate_iff_raw_sql_differs
    ⟨[("u", "CREATE TABLE u(b)")], [("j", some "CREATE INDEX j ON u(b)")], [], 0, 0, 0⟩
    ⟨[("u", "CREATE TABLE u(b)")], [("j", some "CREATE INDEX j  ON u(b)")], [], 0, 0⟩
    false rfl (by decide) "j" (some "CREATE INDEX j ON u(b)") "CREATE INDEX j  ON u(b)"
    (by decide) (by decide) (by decide) (by decide) (by decide)

/-! ## Canonicalizer: output invariants and identity conditions -/

/-- No two adjacent whitespace characters. -/
def RW (a b : Char) : Prop := ¬(isWsChar a = true ∧ isWsChar b = true)

/-- No space adjacent to a bracket character. -/
def RS (a b : Char) : Prop :=
  ¬(a = ' ' ∧ isBrChar b = true) ∧ ¬(isBrChar a = true ∧ b = ' ')

theorem isBr_not_ws {c : Char} (h : isBrChar c = true) : isWsChar c = false := by
  rcases (by simpa [isBrChar] using h : (c = '(' ∨ c = ')') ∨ c = ',') with (h1 | h1) | h1 <;>
    subst h1 <;> decide

theorem scGo_eq_of_no_newline : ∀ (st : Option (List Char)) (l : List Char), '\n' ∉ l →
    scGo st l = (match st with
      | none => l
      | some p => '-' :: '-' :: (p.reverse ++ l)) := by
  intro st l
  induction st, l using scGo.induct with
  | case1 => intro _; rfl
  | case2 c => intro _; rfl
  | case3 c1 c2 rest hc ih =>
    intro h
    obtain ⟨h1, h2⟩ := hc
    subst h1; subst h2
    show scGo none ('-' :: '-' :: rest) = '-' :: '-' :: rest
    simp only [scGo, if_pos (And.intro rfl rfl)]
    have := ih (fun hm => h (by simp [hm]))
    simpa using this
  | case4 c1 c2 rest hc ih =>
    intro h
    show scGo none (c1 :: c2 :: rest) = c1 :: c2 :: rest
    simp only [scGo, if_neg hc]
    have := ih (fun hm => h (by simp [List.mem_cons] at hm ⊢; tauto))
    simpa using this
  | case5 pend =>
    intro _
    show scGo (some pend) [] = '-' :: '-' :: (pend.reverse ++ [])
    simp [scGo]
  | case6 pend rest ih =>
    intro h
    exact absurd (List.mem_cons_self _ _) (fun hm => h hm)
  | case7 pend c rest hc ih =>
    intro h
    show scGo (some pend) (c :: rest) = '-' :: '-' :: (pend.reverse ++ (c :: rest))
    simp only [scGo, if_neg hc]
    have := ih (fun hm => h (by simp [hm]))
    simp only [this]
    simp

theorem stripComments_id_of_no_newline {l : List Char} (h : '\n' ∉ l) :
    stripComments l = l := by
  have := scGo_eq_of_no_newline none l h
  simpa [stripComments] using this

theorem scGo_mem : ∀ (st : Option (List Char)) (l : List Char) (c : Char),
    c ∈ scGo st l → c ∈ l ∨ c = '-' ∨ ∃ p, st = some p ∧ c ∈ p := by
  intro st l
  induction st, l using scGo.induct with
  | case1 => intro c h; cases h
  | case2 d => intro c h; exact Or.inl h
  | case3 c1 c2 rest hc ih =>
    intro c h
    obtain ⟨h1, h2⟩ := hc
    subst h1; subst h2
    simp only [scGo, if_pos (And.intro rfl rfl)] at h
    rcases ih c h with h3 | h3 | ⟨p, hp, hcp⟩
    · exact Or.inl (by simp [h3])
    · exact Or.inr (Or.inl h3)
    · cases Option.some.inj hp
      cases hcp
  | case4 c1 c2 rest hc ih =>
    intro c h
    simp only [scGo, if_neg hc] at h
    rcases List.mem_cons.mp h with h3 | h3
    · exact Or.inl (by simp [h3])
    · rcases ih c h3 with h4 | h4 | ⟨p, hp, hcp⟩
      · exact Or.inl (List.mem_cons_of_mem _ h4)
      · exact Or.inr (Or.inl h4)
      · cases hp
  | case5 pend =>
    intro c h
    rcases List.mem_cons.mp h with h1 | h1
    · exact Or.inr (Or.inl h1)
    · rcases List.mem_cons.mp h1 with h2 | h2
      · exact Or.inr (Or.inl h2)
      · exact Or.inr (Or.inr ⟨pend, rfl, List.mem_reverse.mp h2⟩)
  | case6 pend rest ih =>
    intro c h
    simp only [scGo, if_pos rfl] at h
    rcases ih c h with h3 | h3 | ⟨p, hp, hcp⟩
    · exact Or.inl (by simp [h3])
    · exact Or.inr (Or.inl h3)
    · cases hp
  | case7 pend c0 rest hc ih =>
    intro c h
    simp only [scGo, if_neg hc] at h
    rcases ih c h with h3 | h3 | ⟨p, hp, hcp⟩
    · exact Or.inl (by simp [h3])
    · exact Or.inr (Or.inl h3)
    · cases Option.some.inj hp
      rcases List.mem_cons.mp hcp with h4 | h4
      · exact Or.inl (by simp [h4])
      · exact Or.inr (Or.inr ⟨pend, rfl, h4⟩)

theorem cwGo_mem : ∀ (l : List Char) (b : Bool) (c : Char),
    c ∈ cwGo b l → c = ' ' ∨ c ∈ l := by
  intro l
  induction l with
  | nil => intro b c h; cases h
  | cons a as ih =>
    intro b c h
    by_cases hw : isWsChar a
    · simp only [cwGo, if_pos hw] at h
      by_cases hb : b
      · rw [if_pos hb] at h
        rcases ih true c h with h1 | h1
        · exact Or.inl h1
        · exact Or.inr (List.mem_cons_of_mem _ h1)
      · rw [if_neg hb] at h
        rcases List.mem_cons.mp h with h1 | h1
        · exact Or.inl h1
        · rcases ih true c h1 with h2 | h2
          · exact Or.inl h2
          · exact Or.inr (List.mem_cons_of_mem _ h2)
    · simp only [cwGo, if_neg hw] at h
      rcases List.mem_cons.mp h with h1 | h1
      · exact Or.inr (by simp [h1])
      · rcases ih false c h1 with h2 | h2
        · exact Or.inl h2
        · exact Or.inr (List.mem_cons_of_mem _ h2)

theorem cwGo_out_ws : ∀ (l : List Char) (b : Bool) (c : Char),
    c ∈ cwGo b l → isWsChar c = true → c = ' ' := by
  intro l
  induction l with
  | nil => intro b c h; cases h
  | cons a as ih =>
    intro b c h hc
    by_cases hw : isWsChar a
    · simp only [cwGo, if_pos hw] at h
      by_cases hb : b
      · rw [if_pos hb] at h; exact ih true c h hc
      · rw [if_neg hb] at h
        rcases List.mem_cons.mp h with h1 | h1
        · exact h1
        · exact ih true c h1 hc
    · simp only [cwGo, if_neg hw] at h
      rcases List.mem_cons.mp h with h1 | h1
      · rw [h1] at hc; exact absurd hc (by simp [hw])
      · exact ih false c h1 hc

theorem cwGo_true_head : ∀ (l : List Char) (c : Char),
    (cwGo true l).head? = some c → isWsChar c = false := by
  intro l
  induction l with
  | nil => intro c h; cases h
  | cons a as ih =>
    intro c h
    by_cases hw : isWsChar a
    · simp only [cwGo, if_pos hw, if_pos rfl] at h
      exact ih c h
    · simp only [cwGo, if_neg hw] at h
      rw [Option.some.inj h] at hw
      simpa using hw

theorem cwGo_chain : ∀ (l : List Char) (b : Bool), List.Chain' RW (cwGo b l) := by
  intro l
  induction l with
  | nil => intro b; simp [cwGo]
  | cons a as ih =>
    intro b
    by_cases hw : isWsChar a
    · simp only [cwGo, if_pos hw]
      by_cases hb : b
      · rw [if_pos hb]; exact ih true
      · rw [if_neg hb]
        rw [List.chain'_cons']
        refine ⟨?_, ih true⟩
        intro y hy
        have := cwGo_true_head as y hy
        exact fun hcon => by rw [this] at hcon; exact Bool.noConfusion hcon.2
    · simp only [cwGo, if_neg hw]
      rw [List.chain'_cons']
      refine ⟨?_, ih false⟩
      intro y hy
      exact fun hcon => by
        rw [show isWsChar a = false from by simpa using hw] at hcon
        exact Bool.noConfusion hcon.1

theorem pfGo_mem : ∀ (l : List Char) (b : Bool) (k : Nat) (c : Char),
    c ∈ pfGo b k l → c = ' ' ∨ c ∈ l := by
  intro l
  induction l with
  | nil =>
    intro b k c h
    exact Or.inl (List.eq_of_mem_replicate h)
  | cons a as ih =>
    intro b k c h
    by_cases hsp : a = ' '
    · simp only [pfGo, if_pos hsp] at h
      by_cases hb : b
      · rw [if_pos hb] at h
        rcases ih true 0 c h with h1 | h1
        · exact Or.inl h1
        · exact Or.inr (List.mem_cons_of_mem _ h1)
      · rw [if_neg hb] at h
        rcases ih false (k + 1) c h with h1 | h1
        · exact Or.inl h1
        · exact Or.inr (List.mem_cons_of_mem _ h1)
    · by_cases hbr : isBrChar a
      · simp only [pfGo, if_neg hsp, if_pos hbr] at h
        rcases List.mem_cons.mp h with h1 | h1
        · exact Or.inr (by simp [h1])
        · rcases ih true 0 c h1 with h2 | h2
          · exact Or.inl h2
          · exact Or.inr (List.mem_cons_of_mem _ h2)
      · simp only [pfGo, if_neg hsp, if_neg hbr] at h
        rcases List.mem_append.mp h with h1 | h1
        · exact Or.inl (List.eq_of_mem_replicate h1)
        · rcases List.mem_cons.mp h1 with h2 | h2
          · exact Or.inr (by simp [h2])
          · rcases ih false 0 c h2 with h3 | h3
            · exact Or.inl h3
            · exact Or.inr (List.mem_cons_of_mem _ h3)

theorem pfGo_true_head : ∀ (l : List Char) (c : Char),
    (pfGo true 0 l).head? = some c → c ≠ ' ' := by
  intro l
  induction l with
  | nil => intro c h; cases h
  | cons a as ih =>
    intro c h
    by_cases hsp : a = ' '
    · simp only [pfGo, if_pos hsp, if_pos rfl] at h
      exact ih c h
    · by_cases hbr : isBrChar a
      · simp only [pfGo, if_neg hsp, if_pos hbr] at h
        rw [← Option.some.inj h]
        intro hcon
        exact hsp hcon
      · simp only [pfGo, if_neg hsp, if_neg hbr, List.replicate_zero,
          List.nil_append] at h
        rw [← Option.some.inj h]
        intro hcon
        exact hsp hcon

theorem pfGo_good : ∀ (l : List Char) (b : Bool) (k : Nat),
    List.Chain' RW l → (∀ c ∈ l, isWsChar c = true → c = ' ') →
    k ≤ 1 → (k = 1 → ∀ y, l.head? = some y → y ≠ ' ') → (b = true → k = 0) →
    List.Chain' RW (pfGo b k l) ∧ List.Chain' RS (pfGo b k l) := by
  intro l
  induction l with
  | nil =>
    intro b k hch hws hk hk1 hb
    constructor <;>
      · interval_cases k
        · simp [pfGo]
        · simp [pfGo, List.replicate]
  | cons a as ih =>
    intro b k hch hws hk hk1 hb
    have hch' : List.Chain' RW as := (List.chain'_cons'.mp hch).2
    have hws' : ∀ c ∈ as, isWsChar c = true → c = ' ' :=
      fun c hc => hws c (List.mem_cons_of_mem _ hc)
    by_cases hsp : a = ' '
    · have hk0 : k = 0 := by
        by_contra hk0
        have h1 : k = 1 := by omega
        exact hk1 h1 a rfl hsp
      subst hk0
      by_cases hb2 : b
      · simp only [pfGo, if_pos hsp, if_pos hb2]
        exact ih true 0 hch' hws' (by omega) (by omega) (fun _ => rfl)
      · simp only [pfGo, if_pos hsp, if_neg hb2]
        refine ih false 1 hch' hws' (by omega) ?_ (by simp)
        intro _ y hy hysp
        have hRW := (List.chain'_cons'.mp hch).1 y hy
        have : isWsChar y = true := by rw [hysp]; decide
        exact hRW ⟨by first | decide | (rw [hsp]; decide), this⟩
    · by_cases hbr : isBrChar a
      · simp only [pfGo, if_neg hsp, if_pos hbr]
        have hrec := ih true 0 hch' hws' (by omega) (by omega) (fun _ => rfl)
        constructor
        · rw [List.chain'_cons']
          refine ⟨?_, hrec.1⟩
          intro y hy
          intro hcon
          rw [isBr_not_ws hbr] at hcon
          exact Bool.noConfusion hcon.1
        · rw [List.chain'_cons']
          refine ⟨?_, hrec.2⟩
          intro y hy
          constructor
          · intro hcon
            exact hsp hcon.1
          · intro hcon
            exact pfGo_true_head as y hy hcon.2
      · simp only [pfGo, if_neg hsp, if_neg hbr]
        have hrec := ih false 0 hch' hws' (by omega) (by omega) (by simp)
        have hcons : List.Chain' RW (a :: pfGo false 0 as)
            ∧ List.Chain' RS (a :: pfGo false 0 as) := by
          constructor
          · rw [List.chain'_cons']
            refine ⟨?_, hrec.1⟩
            intro y hy hcon
            have ha : isWsChar a = false := by
              by_contra hcon2
              exact hsp (hws a (List.mem_cons_self _ _)
                (by revert hcon2; cases isWsChar a <;> simp))
            rw [ha] at hcon
            exact Bool.noConfusion hcon.1
          · rw [List.chain'_cons']
            refine ⟨?_, hrec.2⟩
            intro y hy
            exact ⟨fun hcon => hsp hcon.1, fun hcon => by
              rw [(by simpa using hbr : isBrChar a = false)] at hcon
              exact Bool.noConfusion hcon.1⟩
        interval_cases k
        · simpa using hcons
        · simp only [List.replicate_succ, List.replicate_zero, List.nil_append,
            List.singleton_append]
          constructor
          · rw [List.chain'_cons']
            refine ⟨?_, hcons.1⟩
            intro y hy
            rw [show (a :: pfGo false 0 as).head? = some a from rfl] at hy
            rw [← Option.some.inj hy]
            intro hcon
            have ha : isWsChar a = false := by
              by_contra hcon2
              exact hsp (hws a (List.mem_cons_self _ _)
                (by revert hcon2; cases isWsChar a <;> simp))
            rw [ha] at hcon
            exact Bool.noConfusion hcon.2
          · rw [List.chain'_cons']
            refine ⟨?_, hcons.2⟩
            intro y hy
            rw [show (a :: pfGo false 0 as).head? = some a from rfl] at hy
            rw [← Option.some.inj hy]
            refine ⟨fun hcon => ?_, fun hcon => ?_⟩
            · rw [(by simpa using hbr : isBrChar a = false)] at hcon
              exact Bool.noConfusion hcon.2
            · have : isBrChar ' ' = false := by decide
              rw [this] at hcon
              exact Bool.noConfusion hcon.1

theorem cwGo_id : ∀ (l : List Char) (b : Bool),
    (∀ c ∈ l, isWsChar c = true → c = ' ') → List.Chain' RW l →
    (b = true → ∀ y, l.head? = some y → isWsChar y = false) →
    cwGo b l = l := by
  intro l
  induction l with
  | nil => intro b _ _ _; rfl
  | cons a as ih =>
    intro b hws hch hb
    have hch' : List.Chain' RW as := (List.chain'_cons'.mp hch).2
    have hws' : ∀ c ∈ as, isWsChar c = true → c = ' ' :=
      fun c hc => hws c (List.mem_cons_of_mem _ hc)
    by_cases hw : isWsChar a
    · by_cases hb2 : b
      · exact absurd hw (by rw [hb hb2 a rfl]; simp)
      · simp only [cwGo, if_pos hw, if_neg hb2]
        have ha : a = ' ' := hws a (List.mem_cons_self _ _) (by simpa using hw)
        rw [ih true hws' hch' ?_, ha]
        intro _ y hy
        have hRW := (List.chain'_cons'.mp hch).1 y hy
        by_contra hcon
        exact hRW ⟨by simpa using hw, by revert hcon; cases isWsChar y <;> simp⟩
    · simp only [cwGo, if_neg hw]
      rw [ih false hws' hch' (by simp)]

theorem pfGo_id : ∀ (l : List Char) (b : Bool) (k : Nat),
    List.Chain' RS l →
    (b = true → k = 0 ∧ ∀ y, l.head? = some y → y ≠ ' ') →
    (k ≠ 0 → ∀ y, l.head? = some y → isBrChar y = false) →
    pfGo b k l = List.replicate k ' ' ++ l := by
  intro l
  induction l with
  | nil => intro b k _ _ _; simp [pfGo]
  | cons a as ih =>
    intro b k hch hb hk
    have hch' : List.Chain' RS as := (List.chain'_cons'.mp hch).2
    by_cases hsp : a = ' '
    · by_cases hb2 : b
      · exact absurd hsp ((hb hb2).2 a rfl)
      · simp only [pfGo, if_pos hsp, if_neg hb2]
        rw [ih false (k + 1) hch' (by simp) (fun _ y hy => by
          have hRS := (List.chain'_cons'.mp hch).1 y hy
          by_contra hcon
          exact hRS.1 ⟨hsp, by revert hcon; cases isBrChar y <;> simp⟩)]
        rw [show List.replicate (k + 1) ' ' = List.replicate k ' ' ++ [' '] from
            List.replicate_succ' k ' ']
        rw [List.append_assoc, List.singleton_append, hsp]
    · by_cases hbr : isBrChar a
      · have hk0 : k = 0 := by
          by_contra hk0
          rw [hk hk0 a rfl] at hbr
          exact Bool.noConfusion hbr
        subst hk0
        simp only [pfGo, if_neg hsp, if_pos hbr]
        rw [ih true 0 hch' (fun _ => ⟨rfl, fun y hy hcon =>
          ((List.chain'_cons'.mp hch).1 y hy).2 ⟨hbr, hcon⟩⟩) (by simp)]
        try simp
      · simp only [pfGo, if_neg hsp, if_neg hbr]
        rw [ih false 0 hch' (by simp) (by simp)]
        simp

theorem uqGo_id_of_no_quote : ∀ (l : List Char), '"' ∉ l → uqGo none l = l := by
  intro l
  induction l with
  | nil => intro _; rfl
  | cons a as ih =>
    intro h
    have ha : a ≠ '"' := fun hcon => h (by simp [hcon])
    simp only [uqGo, if_neg ha]
    rw [ih (fun hm => h (List.mem_cons_of_mem _ hm))]

/-! ## Trim facts -/

theorem dropWhile_head_false (p : Char → Bool) : ∀ (l : List Char) (c : Char),
    (l.dropWhile p).head? = some c → p c = false := by
  intro l
  induction l with
  | nil => intro c h; cases h
  | cons a as ih =>
    intro c h
    by_cases hp : p a
    · rw [List.dropWhile_cons, if_pos hp] at h
      exact ih c h
    · rw [List.dropWhile_cons, if_neg hp] at h
      rw [← Option.some.inj h]
      simpa using hp

theorem dropWhile_eq_self_of_head (p : Char → Bool) (l : List Char)
    (h : ∀ c, l.head? = some c → p c = false) : l.dropWhile p = l := by
  cases l with
  | nil => rfl
  | cons a as =>
    rw [List.dropWhile_cons, if_neg (by rw [h a rfl]; simp)]

theorem trimChars_head_false (l : List Char) (c : Char)
    (h : (trimChars l).head? = some c) : isWsChar c = false := by
  unfold trimChars at h
  rw [List.head?_reverse] at h
  have hnil : (l.dropWhile isWsChar).reverse.dropWhile isWsChar ≠ [] := by
    intro hx; rw [hx] at h; cases h
  obtain ⟨t, ht⟩ := List.dropWhile_suffix (l := (l.dropWhile isWsChar).reverse) isWsChar
  have h2 : (l.dropWhile isWsChar).reverse.getLast? = some c := by
    rw [← ht, List.getLast?_append_of_ne_nil t hnil]
    exact h
  rw [List.getLast?_reverse] at h2
  exact dropWhile_head_false isWsChar l c h2

theorem trimChars_last_false (l : List Char) (c : Char)
    (h : (trimChars l).getLast? = some c) : isWsChar c = false := by
  unfold trimChars at h
  rw [List.getLast?_reverse] at h
  exact dropWhile_head_false isWsChar _ c h

theorem trimChars_id_of_clean (l : List Char)
    (hh : ∀ c, l.head? = some c → isWsChar c = false)
    (hl : ∀ c, l.getLast? = some c → isWsChar c = false) :
    trimChars l = l := by
  unfold trimChars
  rw [dropWhile_eq_self_of_head isWsChar l hh]
  rw [dropWhile_eq_self_of_head isWsChar l.reverse
    (fun c hc => hl c (by rw [← List.head?_reverse]; exact hc))]
  exact List.reverse_reverse l

theorem trimChars_idem (l : List Char) : trimChars (trimChars l) = trimChars l :=
  trimChars_id_of_clean _ (trimChars_head_false l) (trimChars_last_false l)

theorem trimChars_sublist (l : List Char) : (trimChars l).Sublist l := by
  unfold trimChars
  have h1 : ((l.dropWhile isWsChar).reverse.dropWhile isWsChar).Sublist
      (l.dropWhile isWsChar).reverse := (List.dropWhile_suffix _).sublist
  have h2 := List.Sublist.reverse h1
  rw [List.reverse_reverse] at h2
  exact h2.trans (List.dropWhile_suffix _).sublist

theorem chain'_reverse_of_symm {R : Char → Char → Prop}
    (hsym : ∀ a b, R a b → R b a) {l : List Char}
    (h : List.Chain' R l) : List.Chain' R l.reverse := by
  rw [List.chain'_reverse]
  exact List.Chain'.imp (fun a b hab => hsym a b hab) h

theorem trimChars_chain' {R : Char → Char → Prop}
    (hsym : ∀ a b, R a b → R b a) {l : List Char}
    (h : List.Chain' R l) : List.Chain' R (trimChars l) := by
  unfold trimChars
  exact chain'_reverse_of_symm hsym
    (((chain'_reverse_of_symm hsym (h.suffix (List.dropWhile_suffix _))).suffix
      (List.dropWhile_suffix _)))

theorem unquote_id {l : List Char} (h : '"' ∉ l) : unquote l = l := by
  unfold unquote
  exact uqGo_id_of_no_quote l h

theorem RW_symm : ∀ a b, RW a b → RW b a :=
  fun _ _ h hc => h ⟨hc.2, hc.1⟩

theorem RS_symm : ∀ a b, RS a b → RS b a :=
  fun _ _ h => ⟨fun hc => h.2 ⟨hc.2, hc.1⟩, fun hc => h.1 ⟨hc.2, hc.1⟩⟩

theorem word_toNat_bounds {c : Char} (h : isWordChar c = true) :
    48 ≤ c.toNat ∧ c.toNat ≤ 122 := by
  have h0 : (c.isAlpha = true ∨ c.isDigit = true) ∨ c = '_' := by
    simpa [isWordChar] using h
  rcases h0 with (ha | hd) | hu
  · have h2 : c.isUpper = true ∨ c.isLower = true := by
      simpa [Char.isAlpha] using ha
    rcases h2 with h3 | h3
    · have h4 : (65 : UInt32) ≤ c.val ∧ c.val ≤ (90 : UInt32) := by
        simpa [Char.isUpper] using h3
      have l1 : 65 ≤ c.toNat := h4.1
      have l2 : c.toNat ≤ 90 := h4.2
      omega
    · have h4 : (97 : UInt32) ≤ c.val ∧ c.val ≤ (122 : UInt32) := by
        simpa [Char.isLower] using h3
      have l1 : 97 ≤ c.toNat := h4.1
      have l2 : c.toNat ≤ 122 := h4.2
      omega
  · have h4 : (48 : UInt32) ≤ c.val ∧ c.val ≤ (57 : UInt32) := by
      simpa [Char.isDigit] using hd
    have l1 : 48 ≤ c.toNat := h4.1
    have l2 : c.toNat ≤ 57 := h4.2
    omega
  · subst hu
    exact ⟨by decide, by decide⟩

theorem word_ne {c : Char} (h : isWordChar c = true) {d : Char}
    (hd : isWordChar d = false) : c ≠ d := by
  intro he
  rw [he, hd] at h
  exact Bool.noConfusion h

theorem word_not_ws {c : Char} (h : isWordChar c = true) : isWsChar c = false := by
  have hb := word_toNat_bounds h
  cases hw : isWsChar c with
  | false => rfl
  | true =>
    exfalso
    simp [isWsChar] at hw
    casesm* _ ∨ _
    all_goals first
      | omega
      | (rename_i h1; rw [h1] at hb; exact absurd hb (by decide))

theorem word_not_br {c : Char} (h : isWordChar c = true) : isBrChar c = false := by
  cases hbr : isBrChar c with
  | false => rfl
  | true =>
    exfalso
    have h2 : (c = '(' ∨ c = ')') ∨ c = ',' := by
      simpa [isBrChar] using hbr
    rcases h2 with (h1 | h1) | h1
    all_goals (rw [h1] at h; exact absurd h (by decide))

theorem ws_ne_dash {c : Char} (h : isWsChar c = true) : c ≠ '-' := by
  intro he
  rw [he] at h
  exact absurd h (by decide)

theorem scGo_none_nil : scGo none [] = [] := rfl

theorem scGo_none_one (c : Char) : scGo none [c] = [c] := rfl

theorem scGo_none_cons2 (c1 c2 : Char) (rest : List Char) :
    scGo none (c1 :: c2 :: rest)
      = if c1 = '-' ∧ c2 = '-' then scGo (some []) rest
        else c1 :: scGo none (c2 :: rest) := rfl

theorem scGo_some_cons (p : List Char) (c : Char) (rest : List Char) :
    scGo (some p) (c :: rest)
      = if c = '\n' then scGo none rest else scGo (some (c :: p)) rest := rfl

theorem scGo_some_drop : ∀ (t : List Char), '\n' ∉ t → ∀ (p v : List Char),
    scGo (some p) (t ++ '\n' :: v) = scGo none v := by
  intro t
  induction t with
  | nil =>
    intro _ p v
    show scGo (some p) ('\n' :: v) = scGo none v
    rw [scGo_some_cons, if_pos rfl]
  | cons c cs ih =>
    intro h p v
    have hc : c ≠ '\n' := fun hcon => h (by simp [hcon])
    show scGo (some p) (c :: (cs ++ '\n' :: v)) = scGo none v
    rw [scGo_some_cons, if_neg hc]
    exact ih (fun hm => h (List.mem_cons_of_mem c hm)) (c :: p) v

theorem sc_comment_base (t t' v : List Char) (ht : '\n' ∉ t) (ht' : '\n' ∉ t') :
    ∀ (st : Option (List Char)),
      scGo st ('-' :: '-' :: (t ++ '\n' :: v))
        = scGo st ('-' :: '-' :: (t' ++ '\n' :: v)) := by
  intro st
  cases st with
  | none =>
    have hcond : ('-' : Char) = '-' ∧ ('-' : Char) = '-' := ⟨rfl, rfl⟩
    rw [scGo_none_cons2 '-' '-' (t ++ '\n' :: v), scGo_none_cons2 '-' '-' (t' ++ '\n' :: v),
      if_pos hcond, if_pos hcond,
      scGo_some_drop t ht [] v, scGo_some_drop t' ht' [] v]
  | some p =>
    show scGo (some p) (('-' :: '-' :: t) ++ '\n' :: v)
        = scGo (some p) (('-' :: '-' :: t') ++ '\n' :: v)
    rw [scGo_some_drop ('-' :: '-' :: t) (by simp [ht]) p v,
      scGo_some_drop ('-' :: '-' :: t') (by simp [ht']) p v]

theorem sc_comment_region (t t' v : List Char) (ht : '\n' ∉ t) (ht' : '\n' ∉ t') :
    ∀ (n : Nat) (u : List Char), u.length ≤ n → ∀ (st : Option (List Char)),
      scGo st (u ++ '-' :: '-' :: (t ++ '\n' :: v))
        = scGo st (u ++ '-' :: '-' :: (t' ++ '\n' :: v)) := by
  intro n
  induction n with
  | zero =>
    intro u hu st
    have hu0 : u = [] := List.eq_nil_of_length_eq_zero (Nat.le_zero.mp hu)
    subst hu0
    exact sc_comment_base t t' v ht ht' st
  | succ n ihn =>
    intro u hu st
    match u with
    | [] => exact sc_comment_base t t' v ht ht' st
    | [a] =>
      cases st with
      | none =>
        simp only [List.cons_append, List.nil_append]
        rw [scGo_none_cons2 a '-' ('-' :: (t ++ '\n' :: v)),
          scGo_none_cons2 a '-' ('-' :: (t' ++ '\n' :: v))]
        by_cases ha : a = '-'
        · have hcond : a = '-' ∧ ('-' : Char) = '-' := ⟨ha, rfl⟩
          rw [if_pos hcond, if_pos hcond]
          show scGo (some []) (('-' :: t) ++ '\n' :: v)
              = scGo (some []) (('-' :: t') ++ '\n' :: v)
          rw [scGo_some_drop ('-' :: t) (by simp [ht]) [] v,
            scGo_some_drop ('-' :: t') (by simp [ht']) [] v]
        · rw [if_neg (fun hc : a = '-' ∧ '-' = '-' => ha hc.1),
            if_neg (fun hc : a = '-' ∧ '-' = '-' => ha hc.1)]
          exact congrArg (fun l => a :: l) (sc_comment_base t t' v ht ht' none)
      | some p =>
        simp only [List.cons_append, List.nil_append]
        rw [scGo_some_cons p a ('-' :: '-' :: (t ++ '\n' :: v)),
          scGo_some_cons p a ('-' :: '-' :: (t' ++ '\n' :: v))]
        by_cases ha : a = '\n'
        · rw [if_pos ha, if_pos ha]
          exact sc_comment_base t t' v ht ht' none
        · rw [if_neg ha, if_neg ha]
          exact sc_comment_base t t' v ht ht' (some (a :: p))
    | a :: b :: us =>
      have hus : us.length ≤ n := by
        have := hu
        simp only [List.length_cons] at this
        omega
      have hbus : (b :: us).length ≤ n := by
        have := hu
        simp only [List.length_cons] at this ⊢
        omega
      cases st with
      | none =>
        simp only [List.cons_append]
        rw [scGo_none_cons2 a b (us ++ '-' :: '-' :: (t ++ '\n' :: v)),
          scGo_none_cons2 a b (us ++ '-' :: '-' :: (t' ++ '\n' :: v))]
        by_cases hab : a = '-' ∧ b = '-'
        · rw [if_pos hab, if_pos hab]
          exact ihn us hus (some [])
        · rw [if_neg hab, if_neg hab]
          exact congrArg (fun l => a :: l) (ihn (b :: us) hbus none)
      | some p =>
        simp only [List.cons_append]
        rw [scGo_some_cons p a (b :: (us ++ '-' :: '-' :: (t ++ '\n' :: v))),
          scGo_some_cons p a (b :: (us ++ '-' :: '-' :: (t' ++ '\n' :: v)))]
        by_cases ha : a = '\n'
        · rw [if_pos ha, if_pos ha]
          exact ihn (b :: us) hbus none
        · rw [if_neg ha, if_neg ha]
          exact ihn (b :: us) hbus (some (a :: p))

theorem normaliseSql_mk_of_ne_nil (L : List Char) (h : L ≠ []) :
    normaliseSql (String.mk L)
      = String.mk (trimChars (unquote (parenFix (collapseWs (stripComments L))))) := by
  have hne : String.mk L ≠ "" := by
    intro hcon
    exact h (congrArg String.data hcon)
  rw [normaliseSql, if_neg hne]

theorem comment_invariance (u t t' v : List Char) (ht : '\n' ∉ t) (ht' : '\n' ∉ t') :
    normaliseSql (String.mk (u ++ '-' :: '-' :: (t ++ '\n' :: v)))
      = normaliseSql (String.mk (u ++ '-' :: '-' :: (t' ++ '\n' :: v))) := by
  have hne1 : u ++ '-' :: '-' :: (t ++ '\n' :: v) ≠ [] := by simp
  have hne2 : u ++ '-' :: '-' :: (t' ++ '\n' :: v) ≠ [] := by simp
  rw [normaliseSql_mk_of_ne_nil _ hne1, normaliseSql_mk_of_ne_nil _ hne2]
  have hsc : stripComments (u ++ '-' :: '-' :: (t ++ '\n' :: v))
      = stripComments (u ++ '-' :: '-' :: (t' ++ '\n' :: v)) :=
    sc_comment_region t t' v ht ht' u.length u le_rfl none
  rw [hsc]

theorem cwGo_cons (b : Bool) (c : Char) (cs : List Char) :
    cwGo b (c :: cs)
      = if isWsChar c then (if b then cwGo true cs else ' ' :: cwGo true cs)
        else c :: cwGo false cs := rfl

theorem cwGo_ws_skip : ∀ (r : List Char), (∀ c ∈ r, isWsChar c = true) →
    ∀ y, cwGo true (r ++ y) = cwGo true y := by
  intro r
  induction r with
  | nil => intro _ y; rfl
  | cons c cs ih =>
    intro h y
    show cwGo true (c :: (cs ++ y)) = cwGo true y
    rw [cwGo_cons true c (cs ++ y), if_pos (h c (by simp)), if_pos rfl]
    exact ih (fun d hd => h d (by simp [hd])) y

theorem cwGo_ws_emit (r : List Char) (hne : r ≠ [])
    (hws : ∀ c ∈ r, isWsChar c = true) (y : List Char) :
    cwGo false (r ++ y) = ' ' :: cwGo true y := by
  cases r with
  | nil => exact absurd rfl hne
  | cons c cs =>
    show cwGo false (c :: (cs ++ y)) = _
    rw [cwGo_cons false c (cs ++ y), if_pos (hws c (by simp)),
      if_neg (by simp : ¬(false = true))]
    rw [cwGo_ws_skip cs (fun d hd => hws d (by simp [hd])) y]

theorem cw_ws_region (r r' : List Char) (hne : r ≠ []) (hne' : r' ≠ [])
    (hws : ∀ c ∈ r, isWsChar c = true) (hws' : ∀ c ∈ r', isWsChar c = true) :
    ∀ (x : List Char) (b : Bool) (y : List Char),
      cwGo b (x ++ r ++ y) = cwGo b (x ++ r' ++ y) := by
  intro x
  induction x with
  | nil =>
    intro b y
    simp only [List.nil_append]
    cases b with
    | true => rw [cwGo_ws_skip r hws y, cwGo_ws_skip r' hws' y]
    | false => rw [cwGo_ws_emit r hne hws y, cwGo_ws_emit r' hne' hws' y]
  | cons a xs ih =>
    intro b y
    simp only [List.cons_append]
    rw [cwGo_cons b a ((xs ++ r) ++ y), cwGo_cons b a ((xs ++ r') ++ y)]
    by_cases ha : isWsChar a = true
    · rw [if_pos ha, if_pos ha]
      cases b with
      | true =>
        rw [if_pos rfl, if_pos rfl]
        exact ih true y
      | false =>
        rw [if_neg (by simp : ¬(false = true)), if_neg (by simp : ¬(false = true))]
        exact congrArg (fun l => ' ' :: l) (ih true y)
    · rw [if_neg ha, if_neg ha]
      exact congrArg (fun l => a :: l) (ih false y)

theorem scGo_none_passthrough : ∀ (r : List Char), (∀ c ∈ r, c ≠ '-') →
    ∀ v, scGo none (r ++ v) = r ++ scGo none v := by
  intro r
  induction r with
  | nil => intro _ v; rfl
  | cons c cs ih =>
    intro h v
    show scGo none (c :: (cs ++ v)) = c :: (cs ++ scGo none v)
    cases hcs : cs ++ v with
    | nil =>
      have h1 : cs = [] := (List.append_eq_nil.mp hcs).1
      have h2 : v = [] := (List.append_eq_nil.mp hcs).2
      subst h1; subst h2
      rfl
    | cons d rest =>
      rw [scGo_none_cons2 c d rest]
      rw [if_neg (fun hc => (h c (by simp)) hc.1)]
      rw [← hcs]
      rw [ih (fun d hd => h d (by simp [hd])) v]

theorem scGo_some_append : ∀ (r : List Char), '\n' ∉ r → ∀ (p v : List Char),
    scGo (some p) (r ++ v) = scGo (some (r.reverse ++ p)) v := by
  intro r
  induction r with
  | nil => intro _ p v; simp
  | cons c cs ih =>
    intro h p v
    have hc : c ≠ '\n' := fun hcon => h (by simp [hcon])
    show scGo (some p) (c :: (cs ++ v)) = _
    rw [scGo_some_cons p c (cs ++ v), if_neg hc]
    rw [ih (fun hm => h (by simp [hm])) (c :: p) v]
    have hrev : cs.reverse ++ (c :: p) = (c :: cs).reverse ++ p := by simp
    rw [hrev]

theorem scGo_some_indep : ∀ (v : List Char), '\n' ∈ v → ∀ (p p' : List Char),
    scGo (some p) v = scGo (some p') v := by
  intro v
  induction v with
  | nil => intro hv; cases hv
  | cons c cs ih =>
    intro hv p p'
    rw [scGo_some_cons p c cs, scGo_some_cons p' c cs]
    by_cases hc : c = '\n'
    · rw [if_pos hc, if_pos hc]
    · rw [if_neg hc, if_neg hc]
      have hcs : '\n' ∈ cs := by
        rcases List.mem_cons.mp hv with h1 | h1
        · exact absurd h1.symm hc
        · exact h1
      exact ih hcs (c :: p) (c :: p')

theorem sc_region_base (r r' v : List Char) (Q : Char → Prop)
    (hr : ∀ c ∈ r, c ≠ '-' ∧ c ≠ '\n') (hr' : ∀ c ∈ r', c ≠ '-' ∧ c ≠ '\n') :
    ∀ (st : Option (List Char)), (∀ p c, st = some p → c ∈ p → Q c) →
      (scGo st (r ++ v) = scGo st (r' ++ v))
      ∨ ∃ A B, scGo st (r ++ v) = (A ++ r) ++ B
          ∧ scGo st (r' ++ v) = (A ++ r') ++ B
          ∧ (∀ c ∈ A, Q c ∨ c = '-') := by
  intro st hst
  cases st with
  | none =>
    refine Or.inr ⟨[], scGo none v, ?_, ?_, ?_⟩
    · rw [scGo_none_passthrough r (fun c hc => (hr c hc).1) v]
      simp
    · rw [scGo_none_passthrough r' (fun c hc => (hr' c hc).1) v]
      simp
    · intro c hc
      cases hc
  | some p =>
    have hnr : '\n' ∉ r := fun hm => (hr _ hm).2 rfl
    have hnr' : '\n' ∉ r' := fun hm => (hr' _ hm).2 rfl
    by_cases hv : '\n' ∈ v
    · refine Or.inl ?_
      rw [scGo_some_append r hnr p v, scGo_some_append r' hnr' p v]
      exact scGo_some_indep v hv _ _
    · refine Or.inr ⟨'-' :: '-' :: p.reverse, v, ?_, ?_, ?_⟩
      · rw [scGo_some_append r hnr p v]
        have h5 : scGo (some (r.reverse ++ p)) v
            = '-' :: '-' :: ((r.reverse ++ p).reverse ++ v) :=
          scGo_eq_of_no_newline (some (r.reverse ++ p)) v hv
        rw [h5]
        simp
      · rw [scGo_some_append r' hnr' p v]
        have h5 : scGo (some (r'.reverse ++ p)) v
            = '-' :: '-' :: ((r'.reverse ++ p).reverse ++ v) :=
          scGo_eq_of_no_newline (some (r'.reverse ++ p)) v hv
        rw [h5]
        simp
      · intro c hc
        simp only [List.mem_cons] at hc
        rcases hc with h1 | h1 | h1
        · exact Or.inr h1
        · exact Or.inr h1
        · exact Or.inl (hst p c rfl (List.mem_reverse.mp h1))

theorem sc_region_lift {r r' X Y : List Char} {Q : Char → Prop} {a : Char}
    (hQa : Q a ∨ a = '-')
    (hd : (X = Y)
      ∨ ∃ A B, X = (A ++ r) ++ B ∧ Y = (A ++ r') ++ B ∧ (∀ c ∈ A, Q c ∨ c = '-')) :
    ((a :: X : List Char) = a :: Y)
      ∨ ∃ A B, a :: X = (A ++ r) ++ B ∧ a :: Y = (A ++ r') ++ B
          ∧ (∀ c ∈ A, Q c ∨ c = '-') := by
  rcases hd with heq | ⟨A, B, h1, h2, hA⟩
  · exact Or.inl (by rw [heq])
  · refine Or.inr ⟨a :: A, B, ?_, ?_, ?_⟩
    · rw [h1]
      simp
    · rw [h2]
      simp
    · intro c hc
      rcases List.mem_cons.mp hc with h1c | h1c
      · subst h1c
        exact hQa
      · exact hA c h1c

theorem sc_region (r r' v : List Char) (Q : Char → Prop)
    (hr : ∀ c ∈ r, c ≠ '-' ∧ c ≠ '\n') (hr' : ∀ c ∈ r', c ≠ '-' ∧ c ≠ '\n')
    (hrne : r ≠ []) (hrne' : r' ≠ []) :
    ∀ (n : Nat) (u : List Char), u.length ≤ n → (∀ c ∈ u, Q c) →
      ∀ (st : Option (List Char)), (∀ p c, st = some p → c ∈ p → Q c) →
      (scGo st ((u ++ r) ++ v) = scGo st ((u ++ r') ++ v))
      ∨ ∃ A B, scGo st ((u ++ r) ++ v) = (A ++ r) ++ B
          ∧ scGo st ((u ++ r') ++ v) = (A ++ r') ++ B
          ∧ (∀ c ∈ A, Q c ∨ c = '-') := by
  obtain ⟨r0, rs, hr0⟩ : ∃ r0 rs, r = r0 :: rs := by
    cases r with
    | nil => exact absurd rfl hrne
    | cons x xs => exact ⟨x, xs, rfl⟩
  obtain ⟨r0', rs', hr0'⟩ : ∃ r0 rs, r' = r0 :: rs := by
    cases r' with
    | nil => exact absurd rfl hrne'
    | cons x xs => exact ⟨x, xs, rfl⟩
  have hr0d : r0 ≠ '-' := by
    refine (hr r0 ?_).1
    rw [hr0]
    simp
  have hr0d' : r0' ≠ '-' := by
    refine (hr' r0' ?_).1
    rw [hr0']
    simp
  intro n
  induction n with
  | zero =>
    intro u hu hQ st hst
    have hu0 : u = [] := List.eq_nil_of_length_eq_zero (Nat.le_zero.mp hu)
    subst hu0
    exact sc_region_base r r' v Q hr hr' st hst
  | succ n ihn =>
    intro u hu hQ st hst
    match u with
    | [] => exact sc_region_base r r' v Q hr hr' st hst
    | [a] =>
      have hQa : Q a := hQ a (by simp)
      cases st with
      | none =>
        have hshape1 : scGo none (([a] ++ r) ++ v) = a :: scGo none (r ++ v) := by
          simp only [List.cons_append, List.nil_append]
          rw [hr0]
          simp only [List.cons_append]
          rw [scGo_none_cons2 a r0 (rs ++ v), if_neg (fun hc => hr0d hc.2)]
        have hshape2 : scGo none (([a] ++ r') ++ v) = a :: scGo none (r' ++ v) := by
          simp only [List.cons_append, List.nil_append]
          rw [hr0']
          simp only [List.cons_append]
          rw [scGo_none_cons2 a r0' (rs' ++ v), if_neg (fun hc => hr0d' hc.2)]
        rw [hshape1, hshape2]
        exact sc_region_lift (Or.inl hQa)
          (sc_region_base r r' v Q hr hr' none (fun _ _ h _ => nomatch h))
      | some p =>
        by_cases ha : a = '\n'
        · have hshape1 : scGo (some p) (([a] ++ r) ++ v) = scGo none (r ++ v) := by
            simp only [List.cons_append, List.nil_append]
            rw [scGo_some_cons p a (r ++ v), if_pos ha]
          have hshape2 : scGo (some p) (([a] ++ r') ++ v) = scGo none (r' ++ v) := by
            simp only [List.cons_append, List.nil_append]
            rw [scGo_some_cons p a (r' ++ v), if_pos ha]
          rw [hshape1, hshape2]
          exact sc_region_base r r' v Q hr hr' none (fun _ _ h _ => nomatch h)
        · have hshape1 : scGo (some p) (([a] ++ r) ++ v)
              = scGo (some (a :: p)) (r ++ v) := by
            simp only [List.cons_append, List.nil_append]
            rw [scGo_some_cons p a (r ++ v), if_neg ha]
          have hshape2 : scGo (some p) (([a] ++ r') ++ v)
              = scGo (some (a :: p)) (r' ++ v) := by
            simp only [List.cons_append, List.nil_append]
            rw [scGo_some_cons p a (r' ++ v), if_neg ha]
          rw [hshape1, hshape2]
          refine sc_region_base r r' v Q hr hr' (some (a :: p)) ?_
          intro p' c h hc
          injection h with h'
          subst h'
          rcases List.mem_cons.mp hc with h1 | h1
          · subst h1
            exact hQa
          · exact hst p c rfl h1
    | a :: b :: us =>
      have hQa : Q a := hQ a (by simp)
      have hQ2 : ∀ c ∈ b :: us, Q c := fun c hc => hQ c (by simp [List.mem_cons.mp hc])
      have hQus : ∀ c ∈ us, Q c := fun c hc => hQ2 c (by simp [hc])
      have hbus : (b :: us).length ≤ n := by
        have := hu
        simp only [List.length_cons] at this ⊢
        omega
      have hus : us.length ≤ n := by
        have := hu
        simp only [List.length_cons] at this
        omega
      cases st with
      | none =>
        by_cases hab : a = '-' ∧ b = '-'
        · have hshape1 : scGo none (((a :: b :: us) ++ r) ++ v)
              = scGo (some []) ((us ++ r) ++ v) := by
            simp only [List.cons_append]
            rw [scGo_none_cons2 a b ((us ++ r) ++ v), if_pos hab]
          have hshape2 : scGo none (((a :: b :: us) ++ r') ++ v)
              = scGo (some []) ((us ++ r') ++ v) := by
            simp only [List.cons_append]
            rw [scGo_none_cons2 a b ((us ++ r') ++ v), if_pos hab]
          rw [hshape1, hshape2]
          refine ihn us hus hQus (some []) ?_
          intro p' c h hc
          injection h with h'
          subst h'
          cases hc
        · have hshape1 : scGo none (((a :: b :: us) ++ r) ++ v)
              = a :: scGo none (((b :: us) ++ r) ++ v) := by
            simp only [List.cons_append]
            rw [scGo_none_cons2 a b ((us ++ r) ++ v), if_neg hab]
          have hshape2 : scGo none (((a :: b :: us) ++ r') ++ v)
              = a :: scGo none (((b :: us) ++ r') ++ v) := by
            simp only [List.cons_append]
            rw [scGo_none_cons2 a b ((us ++ r') ++ v), if_neg hab]
          rw [hshape1, hshape2]
          exact sc_region_lift (Or.inl hQa)
            (ihn (b :: us) hbus hQ2 none (fun _ _ h _ => nomatch h))
      | some p =>
        by_cases ha : a = '\n'
        · have hshape1 : scGo (some p) (((a :: b :: us) ++ r) ++ v)
              = scGo none (((b :: us) ++ r) ++ v) := by
            simp only [List.cons_append]
            rw [scGo_some_cons p a (b :: ((us ++ r) ++ v)), if_pos ha]
          have hshape2 : scGo (some p) (((a :: b :: us) ++ r') ++ v)
              = scGo none (((b :: us) ++ r') ++ v) := by
            simp only [List.cons_append]
            rw [scGo_some_cons p a (b :: ((us ++ r') ++ v)), if_pos ha]
          rw [hshape1, hshape2]
          exact ihn (b :: us) hbus hQ2 none (fun _ _ h _ => nomatch h)
        · have hshape1 : scGo (some p) (((a :: b :: us) ++ r) ++ v)
              = scGo (some (a :: p)) (((b :: us) ++ r) ++ v) := by
            simp only [List.cons_append]
            rw [scGo_some_cons p a (b :: ((us ++ r) ++ v)), if_neg ha]
          have hshape2 : scGo (some p) (((a :: b :: us) ++ r') ++ v)
              = scGo (some (a :: p)) (((b :: us) ++ r') ++ v) := by
            simp only [List.cons_append]
            rw [scGo_some_cons p a (b :: ((us ++ r') ++ v)), if_neg ha]
          rw [hshape1, hshape2]
          refine ihn (b :: us) hbus hQ2 (some (a :: p)) ?_
          intro p' c h hc
          injection h with h'
          subst h'
          rcases List.mem_cons.mp hc with h1 | h1
          · subst h1
            exact hQa
          · exact hst p c rfl h1

theorem whitespace_run_invariance (u r r' v : List Char)
    (hner : r ≠ []) (hner' : r' ≠ [])
    (hws : ∀ c ∈ r, isWsChar c = true ∧ c ≠ '\n')
    (hws' : ∀ c ∈ r', isWsChar c = true ∧ c ≠ '\n') :
    normaliseSql (String.mk ((u ++ r) ++ v)) = normaliseSql (String.mk ((u ++ r') ++ v)) := by
  have hne1 : (u ++ r) ++ v ≠ [] := by
    intro hcon
    exact hner (List.append_eq_nil.mp (List.append_eq_nil.mp hcon).1).2
  have hne2 : (u ++ r') ++ v ≠ [] := by
    intro hcon
    exact hner' (List.append_eq_nil.mp (List.append_eq_nil.mp hcon).1).2
  rw [normaliseSql_mk_of_ne_nil _ hne1, normaliseSql_mk_of_ne_nil _ hne2]
  have hrd : ∀ c ∈ r, c ≠ '-' ∧ c ≠ '\n' :=
    fun c hc => ⟨ws_ne_dash (hws c hc).1, (hws c hc).2⟩
  have hrd' : ∀ c ∈ r', c ≠ '-' ∧ c ≠ '\n' :=
    fun c hc => ⟨ws_ne_dash (hws' c hc).1, (hws' c hc).2⟩
  rcases sc_region r r' v (fun _ => True) hrd hrd' hner hner' u.length u le_rfl
      (fun _ _ => trivial) none (fun _ _ h _ => nomatch h) with heq | ⟨A, B, h1, h2, _⟩
  · have hsc : stripComments ((u ++ r) ++ v) = stripComments ((u ++ r') ++ v) := heq
    rw [hsc]
  · have hsc1 : stripComments ((u ++ r) ++ v) = (A ++ r) ++ B := h1
    have hsc2 : stripComments ((u ++ r') ++ v) = (A ++ r') ++ B := h2
    rw [hsc1, hsc2]
    have hcw : collapseWs ((A ++ r) ++ B) = collapseWs ((A ++ r') ++ B) :=
      cw_ws_region r r' hner hner' (fun c hc => (hws c hc).1)
        (fun c hc => (hws' c hc).1) A false B
    rw [hcw]

theorem cwGo_keep_front : ∀ (r : List Char), (∀ c ∈ r, isWsChar c = false) →
    r ≠ [] → ∀ (b : Bool) (y : List Char), cwGo b (r ++ y) = r ++ cwGo false y := by
  intro r
  induction r with
  | nil => intro _ h; exact absurd rfl h
  | cons c cs ih =>
    intro h _ b y
    show cwGo b (c :: (cs ++ y)) = c :: (cs ++ cwGo false y)
    rw [cwGo_cons b c (cs ++ y), if_neg (by simp [h c (by simp)])]
    by_cases hcs : cs = []
    · subst hcs
      simp only [List.nil_append]
    · rw [ih (fun d hd => h d (by simp [hd])) hcs false y]

theorem cw_region_keep (r r' : List Char) (hne : r ≠ []) (hne' : r' ≠ [])
    (hnws : ∀ c ∈ r, isWsChar c = false) (hnws' : ∀ c ∈ r', isWsChar c = false) :
    ∀ (x : List Char) (b : Bool) (y : List Char),
      ∃ X, cwGo b ((x ++ r) ++ y) = (X ++ r) ++ cwGo false y
        ∧ cwGo b ((x ++ r') ++ y) = (X ++ r') ++ cwGo false y
        ∧ (∀ c ∈ X, c = ' ' ∨ c ∈ x) := by
  intro x
  induction x with
  | nil =>
    intro b y
    refine ⟨[], ?_, ?_, ?_⟩
    · simp only [List.nil_append]
      exact cwGo_keep_front r hnws hne b y
    · simp only [List.nil_append]
      exact cwGo_keep_front r' hnws' hne' b y
    · intro c hc
      cases hc
  | cons a xs ih =>
    intro b y
    by_cases ha : isWsChar a = true
    · cases b with
      | true =>
        obtain ⟨X, h1, h2, hX⟩ := ih true y
        refine ⟨X, ?_, ?_, ?_⟩
        · simp only [List.cons_append]
          rw [cwGo_cons true a ((xs ++ r) ++ y), if_pos ha, if_pos rfl]
          exact h1
        · simp only [List.cons_append]
          rw [cwGo_cons true a ((xs ++ r') ++ y), if_pos ha, if_pos rfl]
          exact h2
        · intro c hc
          rcases hX c hc with h | h
          · exact Or.inl h
          · exact Or.inr (by simp [h])
      | false =>
        obtain ⟨X, h1, h2, hX⟩ := ih true y
        refine ⟨' ' :: X, ?_, ?_, ?_⟩
        · simp only [List.cons_append]
          rw [cwGo_cons false a ((xs ++ r) ++ y), if_pos ha,
            if_neg (by simp : ¬(false = true)), h1]
        · simp only [List.cons_append]
          rw [cwGo_cons false a ((xs ++ r') ++ y), if_pos ha,
            if_neg (by simp : ¬(false = true)), h2]
        · intro c hc
          rcases List.mem_cons.mp hc with h | h
          · exact Or.inl h
          · rcases hX c h with h3 | h3
            · exact Or.inl h3
            · exact Or.inr (by simp [h3])
    · obtain ⟨X, h1, h2, hX⟩ := ih false y
      refine ⟨a :: X, ?_, ?_, ?_⟩
      · simp only [List.cons_append]
        rw [cwGo_cons b a ((xs ++ r) ++ y), if_neg ha, h1]
      · simp only [List.cons_append]
        rw [cwGo_cons b a ((xs ++ r') ++ y), if_neg ha, h2]
      · intro c hc
        rcases List.mem_cons.mp hc with h | h
        · exact Or.inr (by simp [h])
        · rcases hX c h with h3 | h3
          · exact Or.inl h3
          · exact Or.inr (by simp [h3])

theorem pfGo_cons (b : Bool) (k : Nat) (c : Char) (cs : List Char) :
    pfGo b k (c :: cs)
      = if c = ' ' then (if b then pfGo true 0 cs else pfGo false (k + 1) cs)
        else if isBrChar c then c :: pfGo true 0 cs
        else List.replicate k ' ' ++ (c :: pfGo false 0 cs) := rfl

theorem pfGo_keep_front : ∀ (r : List Char), (∀ c ∈ r, c ≠ ' ' ∧ isBrChar c = false) →
    r ≠ [] → ∀ (b : Bool) (k : Nat) (y : List Char),
    pfGo b k (r ++ y) = (List.replicate k ' ' ++ r) ++ pfGo false 0 y := by
  intro r
  induction r with
  | nil => intro _ h; exact absurd rfl h
  | cons c cs ih =>
    intro h _ b k y
    show pfGo b k (c :: (cs ++ y)) = _
    rw [pfGo_cons b k c (cs ++ y), if_neg (h c (by simp)).1,
      if_neg (by simp [(h c (by simp)).2])]
    by_cases hcs : cs = []
    · subst hcs
      simp
    · rw [ih (fun d hd => h d (by simp [hd])) hcs false 0 y]
      simp

theorem pf_region_keep (r r' : List Char) (hne : r ≠ []) (hne' : r' ≠ [])
    (hk : ∀ c ∈ r, c ≠ ' ' ∧ isBrChar c = false)
    (hk' : ∀ c ∈ r', c ≠ ' ' ∧ isBrChar c = false) :
    ∀ (x : List Char) (b : Bool) (k : Nat) (y : List Char),
      ∃ X, pfGo b k ((x ++ r) ++ y) = (X ++ r) ++ pfGo false 0 y
        ∧ pfGo b k ((x ++ r') ++ y) = (X ++ r') ++ pfGo false 0 y
        ∧ (∀ c ∈ X, c = ' ' ∨ c ∈ x) := by
  intro x
  induction x with
  | nil =>
    intro b k y
    refine ⟨List.replicate k ' ', ?_, ?_, ?_⟩
    · simp only [List.nil_append]
      exact pfGo_keep_front r hk hne b k y
    · simp only [List.nil_append]
      exact pfGo_keep_front r' hk' hne' b k y
    · intro c hc
      exact Or.inl (List.eq_of_mem_replicate hc)
  | cons a xs ih =>
    intro b k y
    by_cases ha : a = ' '
    · cases b with
      | true =>
        obtain ⟨X, h1, h2, hX⟩ := ih true 0 y
        refine ⟨X, ?_, ?_, ?_⟩
        · simp only [List.cons_append]
          rw [pfGo_cons true k a ((xs ++ r) ++ y), if_pos ha, if_pos rfl]
          exact h1
        · simp only [List.cons_append]
          rw [pfGo_cons true k a ((xs ++ r') ++ y), if_pos ha, if_pos rfl]
          exact h2
        · intro c hc
          rcases hX c hc with h | h
          · exact Or.inl h
          · exact Or.inr (by simp [h])
      | false =>
        obtain ⟨X, h1, h2, hX⟩ := ih false (k + 1) y
        refine ⟨X, ?_, ?_, ?_⟩
        · simp only [List.cons_append]
          rw [pfGo_cons false k a ((xs ++ r) ++ y), if_pos ha,
            if_neg (by simp : ¬(false = true))]
          exact h1
        · simp only [List.cons_append]
          rw [pfGo_cons false k a ((xs ++ r') ++ y), if_pos ha,
            if_neg (by simp : ¬(false = true))]
          exact h2
        · intro c hc
          rcases hX c hc with h | h
          · exact Or.inl h
          · exact Or.inr (by simp [h])
    · by_cases hbr : isBrChar a = true
      · obtain ⟨X, h1, h2, hX⟩ := ih true 0 y
        refine ⟨a :: X, ?_, ?_, ?_⟩
        · simp only [List.cons_append]
          rw [pfGo_cons b k a ((xs ++ r) ++ y), if_neg ha, if_pos hbr, h1]
        · simp only [List.cons_append]
          rw [pfGo_cons b k a ((xs ++ r') ++ y), if_neg ha, if_pos hbr, h2]
        · intro c hc
          rcases List.mem_cons.mp hc with h | h
          · exact Or.inr (by simp [h])
          · rcases hX c h with h3 | h3
            · exact Or.inl h3
            · exact Or.inr (by simp [h3])
      · obtain ⟨X, h1, h2, hX⟩ := ih false 0 y
        refine ⟨List.replicate k ' ' ++ (a :: X), ?_, ?_, ?_⟩
        · simp only [List.cons_append]
          rw [pfGo_cons b k a ((xs ++ r) ++ y), if_neg ha, if_neg hbr, h1]
          simp
        · simp only [List.cons_append]
          rw [pfGo_cons b k a ((xs ++ r') ++ y), if_neg ha, if_neg hbr, h2]
          simp
        · intro c hc
          rcases List.mem_append.mp hc with h | h
          · exact Or.inl (List.eq_of_mem_replicate h)
          · rcases List.mem_cons.mp h with h3 | h3
            · exact Or.inr (by simp [h3])
            · rcases hX c h3 with h4 | h4
              · exact Or.inl h4
              · exact Or.inr (by simp [h4])

theorem uqGo_none_cons (c : Char) (cs : List Char) :
    uqGo none (c :: cs)
      = if c = '"' then uqGo (some []) cs else c :: uqGo none cs := rfl

theorem uqGo_some_cons (p : List Char) (c : Char) (cs : List Char) :
    uqGo (some p) (c :: cs)
      = if isWordChar c then uqGo (some (c :: p)) cs
        else if c = '"' then
          (if p.isEmpty then '"' :: uqGo (some []) cs else p.reverse ++ uqGo none cs)
        else '"' :: p.reverse ++ (c :: uqGo none cs) := rfl

theorem uqGo_none_passthrough : ∀ (A : List Char), '"' ∉ A → ∀ z,
    uqGo none (A ++ z) = A ++ uqGo none z := by
  intro A
  induction A with
  | nil => intro _ z; rfl
  | cons c cs ih =>
    intro h z
    show uqGo none (c :: (cs ++ z)) = c :: (cs ++ uqGo none z)
    rw [uqGo_none_cons c (cs ++ z), if_neg (fun hc => h (by simp [hc])),
      ih (fun hm => h (by simp [hm])) z]

theorem uqGo_some_word : ∀ (w : List Char), (∀ c ∈ w, isWordChar c = true) →
    ∀ (p B : List Char), (p ≠ [] ∨ w ≠ []) →
    uqGo (some p) (w ++ '"' :: B) = (p.reverse ++ w) ++ uqGo none B := by
  intro w
  induction w with
  | nil =>
    intro _ p B hpw
    have hp : p ≠ [] := by
      rcases hpw with h | h
      · exact h
      · exact absurd rfl h
    show uqGo (some p) ('"' :: B) = (p.reverse ++ []) ++ uqGo none B
    have hpe : p.isEmpty = false := by
      cases p with
      | nil => exact absurd rfl hp
      | cons d ds => rfl
    rw [uqGo_some_cons p '"' B, if_neg (by decide : ¬(isWordChar '"' = true)),
      if_pos rfl, if_neg (by simp [hpe])]
    simp
  | cons c ws ih =>
    intro h p B _
    show uqGo (some p) (c :: (ws ++ '"' :: B)) = _
    rw [uqGo_some_cons p c (ws ++ '"' :: B), if_pos (h c (by simp)),
      ih (fun d hd => h d (by simp [hd])) (c :: p) B (Or.inl (by simp))]
    simp

theorem uq_region (X w Z : List Char) (hX : '"' ∉ X) (hw : w ≠ [])
    (hword : ∀ c ∈ w, isWordChar c = true) :
    uqGo none ((X ++ ('"' :: (w ++ ['"']))) ++ Z) = uqGo none ((X ++ w) ++ Z) := by
  have hassoc : (X ++ ('"' :: (w ++ ['"']))) ++ Z = X ++ ('"' :: (w ++ '"' :: Z)) := by
    simp
  rw [hassoc, uqGo_none_passthrough X hX _]
  rw [uqGo_none_cons '"' (w ++ '"' :: Z), if_pos rfl]
  rw [uqGo_some_word w hword [] Z (Or.inr hw)]
  have hXw : '"' ∉ X ++ w := by
    intro hm
    rcases List.mem_append.mp hm with h1 | h1
    · exact hX h1
    · exact absurd (hword _ h1) (by decide)
  rw [uqGo_none_passthrough (X ++ w) hXw Z]
  simp

theorem quote_invariance (u w v : List Char) (hqu : '"' ∉ u) (hw : w ≠ [])
    (hword : ∀ c ∈ w, isWordChar c = true) :
    normaliseSql (String.mk (u ++ '"' :: (w ++ '"' :: v)))
      = normaliseSql (String.mk (u ++ (w ++ v))) := by
  have hkey1 : u ++ '"' :: (w ++ '"' :: v) = (u ++ ('"' :: (w ++ ['"']))) ++ v := by
    simp
  have hkey2 : u ++ (w ++ v) = (u ++ w) ++ v := by
    simp
  rw [hkey1, hkey2]
  have hner : ('"' :: (w ++ ['"']) : List Char) ≠ [] := by simp
  have hne1 : (u ++ ('"' :: (w ++ ['"']))) ++ v ≠ [] := by simp
  have hne2 : (u ++ w) ++ v ≠ [] := by
    intro hcon
    exact hw (List.append_eq_nil.mp (List.append_eq_nil.mp hcon).1).2
  rw [normaliseSql_mk_of_ne_nil _ hne1, normaliseSql_mk_of_ne_nil _ hne2]
  have hrfacts : ∀ c ∈ ('"' :: (w ++ ['"']) : List Char), c ≠ '-' ∧ c ≠ '\n' := by
    intro c hc
    rcases List.mem_cons.mp hc with h | h
    · subst h
      exact ⟨by decide, by decide⟩
    · rcases List.mem_append.mp h with h1 | h1
      · exact ⟨word_ne (hword c h1) (by decide), word_ne (hword c h1) (by decide)⟩
      · have hq : c = '"' := by simpa using h1
        subst hq
        exact ⟨by decide, by decide⟩
  have hrfacts' : ∀ c ∈ w, c ≠ '-' ∧ c ≠ '\n' :=
    fun c hc => ⟨word_ne (hword c hc) (by decide), word_ne (hword c hc) (by decide)⟩
  rcases sc_region ('"' :: (w ++ ['"'])) w v (fun c => c ∈ u) hrfacts hrfacts' hner hw
      u.length u le_rfl (fun _ h => h) none (fun _ _ h _ => nomatch h)
    with heq | ⟨A, B, h1, h2, hA⟩
  · have hsc : stripComments ((u ++ ('"' :: (w ++ ['"']))) ++ v)
        = stripComments ((u ++ w) ++ v) := heq
    rw [hsc]
  · have hsc1 : stripComments ((u ++ ('"' :: (w ++ ['"']))) ++ v)
        = (A ++ ('"' :: (w ++ ['"']))) ++ B := h1
    have hsc2 : stripComments ((u ++ w) ++ v) = (A ++ w) ++ B := h2
    rw [hsc1, hsc2]
    have hnws : ∀ c ∈ ('"' :: (w ++ ['"']) : List Char), isWsChar c = false := by
      intro c hc
      rcases List.mem_cons.mp hc with h | h
      · subst h
        decide
      · rcases List.mem_append.mp h with h1 | h1
        · exact word_not_ws (hword c h1)
        · have hq : c = '"' := by simpa using h1
          subst hq
          decide
    have hnws' : ∀ c ∈ w, isWsChar c = false := fun c hc => word_not_ws (hword c hc)
    obtain ⟨X, hc1, hc2, hX⟩ :=
      cw_region_keep ('"' :: (w ++ ['"'])) w hner hw hnws hnws' A false B
    have hcw1 : collapseWs ((A ++ ('"' :: (w ++ ['"']))) ++ B)
        = (X ++ ('"' :: (w ++ ['"']))) ++ cwGo false B := hc1
    have hcw2 : collapseWs ((A ++ w) ++ B) = (X ++ w) ++ cwGo false B := hc2
    rw [hcw1, hcw2]
    have hkp : ∀ c ∈ ('"' :: (w ++ ['"']) : List Char), c ≠ ' ' ∧ isBrChar c = false := by
      intro c hc
      rcases List.mem_cons.mp hc with h | h
      · subst h
        exact ⟨by decide, by decide⟩
      · rcases List.mem_append.mp h with h1 | h1
        · exact ⟨word_ne (hword c h1) (by decide), word_not_br (hword c h1)⟩
        · have hq : c = '"' := by simpa using h1
          subst hq
          exact ⟨by decide, by decide⟩
    have hkp' : ∀ c ∈ w, c ≠ ' ' ∧ isBrChar c = false :=
      fun c hc => ⟨word_ne (hword c hc) (by decide), word_not_br (hword c hc)⟩
    obtain ⟨Y, hp1, hp2, hY⟩ := pf_region_keep ('"' :: (w ++ ['"'])) w hner hw hkp hkp'
      X false 0 (cwGo false B)
    have hpf1 : parenFix ((X ++ ('"' :: (w ++ ['"']))) ++ cwGo false B)
        = (Y ++ ('"' :: (w ++ ['"']))) ++ pfGo false 0 (cwGo false B) := hp1
    have hpf2 : parenFix ((X ++ w) ++ cwGo false B)
        = (Y ++ w) ++ pfGo false 0 (cwGo false B) := hp2
    rw [hpf1, hpf2]
    have hqY : '"' ∉ Y := by
      intro hm
      rcases hY '"' hm with h | h
      · exact absurd h (by decide)
      · rcases hX '"' h with h3 | h3
        · exact absurd h3 (by decide)
        · rcases hA '"' h3 with h4 | h4
          · exact hqu h4
          · exact absurd h4 (by decide)
    have huq : unquote ((Y ++ ('"' :: (w ++ ['"']))) ++ pfGo false 0 (cwGo false B))
        = unquote ((Y ++ w) ++ pfGo false 0 (cwGo false B)) :=
      uq_region Y w (pfGo false 0 (cwGo false B)) hqY hw hword
    rw [huq]

/-- C7 (amended): two statements canonicalize identically when they differ only
in the text of a newline-terminated single-line comment, or only in a
newline-free whitespace run, or only in unnecessary double-quoting around a
word-character identifier occurring after a quote-free prefix. (A trailing
`--` comment without a closing newline is not stripped — see the
counterexample — which is why the comment part requires the terminating
newline and the whitespace part excludes newlines.) -/
theorem canonicalize_invariance :
    (∀ u t t' v : List Char, '\n' ∉ t → '\n' ∉ t' →
      normaliseSql (String.mk (u ++ '-' :: '-' :: (t ++ '\n' :: v)))
        = normaliseSql (String.mk (u ++ '-' :: '-' :: (t' ++ '\n' :: v))))
    ∧ (∀ u r r' v : List Char, r ≠ [] → r' ≠ [] →
        (∀ c ∈ r, isWsChar c = true ∧ c ≠ '\n') →
        (∀ c ∈ r', isWsChar c = true ∧ c ≠ '\n') →
        normaliseSql (String.mk ((u ++ r) ++ v))
          = normaliseSql (String.mk ((u ++ r') ++ v)))
    ∧ (∀ u w v : List Char, '"' ∉ u → w ≠ [] → (∀ c ∈ w, isWordChar c = true) →
        normaliseSql (String.mk (u ++ '"' :: (w ++ '"' :: v)))
          = normaliseSql (String.mk (u ++ (w ++ v)))) :=
  ⟨fun u t t' v ht ht' => comment_invariance u t t' v ht ht',
   fun u r r' v h1 h2 h3 h4 => whitespace_run_invariance u r r' v h1 h2 h3 h4,
   fun u w v h1 h2 h3 => quote_invariance u w v h1 h2 h3⟩

/-- Witness for C7's amended statement: concrete comment-text, whitespace-run
and quoting variations produce canonically equal statements. -/
theorem canonicalize_invariance_witness :
    (normaliseSql (String.mk ("SELECT 1 ".data
          ++ '-' :: '-' :: (" a comment".data ++ '\n' :: "FROM t".data)))
      = normaliseSql (String.mk ("SELECT 1 ".data
          ++ '-' :: '-' :: (" another".data ++ '\n' :: "FROM t".data))))
    ∧ (normaliseSql (String.mk (("SELECT".data ++ "  ".data) ++ "1".data))
      = normaliseSql (String.mk (("SELECT".data ++ " \t ".data) ++ "1".data)))
    ∧ (normaliseSql (String.mk ("SELECT ".data
          ++ '"' :: ("abc".data ++ '"' :: " FROM t".data)))
      = normaliseSql (String.mk ("SELECT ".data ++ ("abc".data ++ " FROM t".data)))) :=
  ⟨canonicalize_invariance.1 "SELECT 1 ".data " a comment".data " another".data
      "FROM t".data (by decide) (by decide),
   canonicalize_invariance.2.1 "SELECT".data "  ".data " \t ".data "1".data
      (by decide) (by decide) (by decide) (by decide),
   canonicalize_invariance.2.2 "SELECT ".data "abc".data " FROM t".data
      (by decide) (by decide) (by decide)⟩



/-- C8 (amended): `normaliseSql` is idempotent on every input without a
double-quote character. (With quotes, a second pass can strip further quote
pairs — see the counterexample.) -/
theorem normaliseSql_idempotent_quote_free (s : String) (hq : '"' ∉ s.data) :
    normaliseSql (normaliseSql s) = normaliseSql s := by
  by_cases hs : s = ""
  · rw [hs]; rfl
  · have hq1 : '"' ∉ stripComments s.data := fun hm => by
      rcases scGo_mem none s.data '"' hm with h1 | h1 | ⟨p, hp, _⟩
      · exact hq h1
      · exact absurd h1 (by decide)
      · cases hp
    have hq2 : '"' ∉ collapseWs (stripComments s.data) := fun hm => by
      rcases cwGo_mem _ false '"' hm with h1 | h1
      · exact absurd h1 (by decide)
      · exact hq1 h1
    have hq3 : '"' ∉ parenFix (collapseWs (stripComments s.data)) := fun hm => by
      rcases pfGo_mem _ false 0 '"' hm with h1 | h1
      · exact absurd h1 (by decide)
      · exact hq2 h1
    have hinner : normaliseSql s
        = String.mk (trimChars (parenFix (collapseWs (stripComments s.data)))) := by
      rw [normaliseSql, if_neg hs, unquote_id hq3]
    rw [hinner]
    by_cases hnil :
        String.mk (trimChars (parenFix (collapseWs (stripComments s.data)))) = ""
    · rw [normaliseSql, if_pos hnil, hnil]
    · rw [normaliseSql, if_neg hnil]
      have hd : (String.mk (trimChars (parenFix (collapseWs (stripComments s.data))))).data
          = trimChars (parenFix (collapseWs (stripComments s.data))) := rfl
      rw [hd]
      have hch3 := pfGo_good (collapseWs (stripComments s.data)) false 0
        (cwGo_chain _ false) (fun c hc hw => cwGo_out_ws _ false c hc hw)
        (by omega) (by omega) (by simp)
      have hwsns : ∀ c ∈ trimChars (parenFix (collapseWs (stripComments s.data))),
          isWsChar c = true → c = ' ' := by
        intro c hc hw
        have hcl3 := (trimChars_sublist _).subset hc
        rcases pfGo_mem _ false 0 c hcl3 with h1 | h1
        · exact h1
        · exact cwGo_out_ws _ false c h1 hw
      have hnl : '\n' ∉ trimChars (parenFix (collapseWs (stripComments s.data))) := by
        intro hm
        have := hwsns '\n' hm (by decide)
        exact absurd this (by decide)
      have hchW : List.Chain' RW (trimChars (parenFix (collapseWs (stripComments s.data)))) :=
        trimChars_chain' RW_symm hch3.1
      have hchS : List.Chain' RS (trimChars (parenFix (collapseWs (stripComments s.data)))) :=
        trimChars_chain' RS_symm hch3.2
      have hqns : '"' ∉ trimChars (parenFix (collapseWs (stripComments s.data))) :=
        fun hm => hq3 ((trimChars_sublist _).subset hm)
      rw [stripComments_id_of_no_newline hnl]
      rw [show collapseWs (trimChars (parenFix (collapseWs (stripComments s.data))))
          = trimChars (parenFix (collapseWs (stripComments s.data))) from
        cwGo_id _ false hwsns hchW (by simp)]
      rw [show parenFix (trimChars (parenFix (collapseWs (stripComments s.data))))
          = trimChars (parenFix (collapseWs (stripComments s.data))) from by
        show pfGo false 0 _ = _
        rw [pfGo_id _ false 0 hchS (by simp) (by simp)]
        simp]
      rw [unquote_id hqns, trimChars_idem]

/-- Witness for C8's amended statement at a concrete input. -/
theorem normaliseSql_idempotent_quote_free_witness :
    normaliseSql (normaliseSql "SELECT  1 --x") = normaliseSql "SELECT  1 --x" :=
  normaliseSql_idempotent_quote_free "SELECT  1 --x" (by decide)
